import Mathlib

/-!
Verification development for the dcsv dynamic CSV container library.

The Rust sources (parser.rs, value.rs, meta.rs, virtual_data.rs,
virtual_array.rs, reader.rs, utils.rs) are shallowly embedded below:
strings are lists of characters, machine integers are Nat/Int, fallible
operations return Option or Except, and a Rust panic is modelled as the
none case of an Option-valued result.  Mutating methods on the containers
are embedded as state-passing functions returning the updated container
together with an optional error, mirroring the `&mut self ->
DcsvResult<()>` shape of the source: an early `return Err(..)` yields the
container exactly as it was at that point of the method body.
-/

namespace Dcsv

/-- Strings are embedded as lists of unicode scalar values, matching the
character-by-character processing of the Rust source. -/
abbrev Str := List Char

/-- Turn a Lean string literal into the embedded string type. -/
def s2l (s : String) : Str := s.toList

/-! ### Decimal formatting and parsing of machine integers

The source displays `isize` values with Rust `Display` and parses them
with `str::parse::<isize>` / `str::parse::<usize>`.  Overflow of 64-bit
values is not modelled (no claim involves values of magnitude 2^63 or
more); otherwise the grammar is exact: an optional sign followed by one
or more ASCII digits. -/

/-- ASCII digit character of a value below ten. -/
def digitChar (n : Nat) : Char := Char.ofNat (48 + n)

/-- Decimal digits of a natural number, most significant first.  The
fuel argument bounds the division chain; `natToStr` supplies enough. -/
def natDigitsAux : Nat → Nat → Str
  | 0, _ => []
  | fuel + 1, n => if n < 10 then [digitChar n] else natDigitsAux fuel (n / 10) ++ [digitChar (n % 10)]

/-- Decimal rendering of a natural number. -/
def natToStr (n : Nat) : Str := natDigitsAux (n + 1) n

/-- Rendering of a signed integer, as produced by Rust `isize` Display. -/
def intToStr : Int → Str
  | Int.ofNat n => natToStr n
  | Int.negSucc m => '-' :: natToStr (m + 1)

/-- Whether a character is an ASCII digit. -/
def isDigitChar (c : Char) : Bool := 48 ≤ c.toNat && c.toNat ≤ 57

/-- Numeric value of an ASCII digit character. -/
def digitVal (c : Char) : Nat := c.toNat - 48

/-- Accumulating decimal parser over a digit list; fails on the first
non-digit character. -/
def parseNatGo : Str → Nat → Option Nat
  | [], acc => some acc
  | c :: rest, acc => if isDigitChar c then parseNatGo rest (acc * 10 + digitVal c) else none

/-- Parse a non-empty all-digit string as a natural number. -/
def parseNatDigits : Str → Option Nat
  | [] => none
  | s => parseNatGo s 0

/-- Embedding of Rust `str::parse::<isize>`: optional sign, then one or
more ASCII digits. -/
def parseIsize : Str → Option Int
  | [] => none
  | c :: rest =>
      if c = '+' then (parseNatDigits rest).map Int.ofNat
      else if c = '-' then (parseNatDigits rest).map (fun m => -(m : Int))
      else (parseNatDigits (c :: rest)).map Int.ofNat

/-- Embedding of Rust `str::parse::<usize>`: optional plus sign, then
one or more ASCII digits. -/
def parseUsizeRust : Str → Option Nat
  | [] => none
  | c :: rest =>
      if c = '+' then parseNatDigits rest
      else parseNatDigits (c :: rest)

/-! ### Unicode display width

The source measures cell widths with the external unicode-width crate.
Modelled from the spec: the display width of a string, counting
characters; control characters have width zero and all other characters
are given width one (the two-column wide code points of the real crate
are not distinguished — no claim depends on them). -/

/-- Display width of one character. -/
def charWidth (c : Char) : Nat := if c.toNat < 32 || c.toNat = 127 then 0 else 1

/-- Display width of a string. -/
def strWidth (s : Str) : Nat := (s.map charWidth).sum

/-! ### Errors

Embedding of error.rs.  The Rust variants carry formatted message
strings; only the error kind is observable to the claims, so the
payloads are omitted. -/

/-- Error kinds of dcsv operations (error.rs). -/
inductive DcsvError where
  | invalidLimiter
  | invalidValueType
  | ioError
  | outOfRangeError
  | insufficientRowData
  | invalidRowData
  | invalidColumn
  | invalidCellData
  | commandError
deriving DecidableEq

/-! ### Values (value.rs) -/

/-- Type of a value: number or text. -/
inductive ValueType where
  | number
  | text
deriving DecidableEq

/-- A csv value: a signed integer or a text string. -/
inductive Value where
  | number (n : Int)
  | text (s : Str)
deriving DecidableEq

instance : Inhabited Value := ⟨.text []⟩

/-- Type of a value (Value::get_type). -/
def Value.getType : Value → ValueType
  | .number _ => .number
  | .text _ => .text

/-- String form of a value (Display for Value). -/
def Value.toStr : Value → Str
  | .number n => intToStr n
  | .text s => s

/-- Value::from_str: converts a string into a value of the given type;
an empty string converts to the number zero. -/
def Value.fromStr (src : Str) (value_type : ValueType) : Except DcsvError Value :=
  match value_type with
  | .number =>
      if src = [] then .ok (.number 0)
      else
        match parseIsize src with
        | none => .error .invalidValueType
        | some n => .ok (.number n)
  | .text => .ok (.text src)

/-- Value::empty: the empty value of each type. -/
def Value.empty : ValueType → Value
  | .number => .number 0
  | .text => .text []

/-- Display width of the string form of a value.  Modelled from the
spec: Value::get_width is declared in the crate but its body is not part
of the provided sources; the spec defines meta widths as the display
width of the rendered value. -/
def Value.getWidth (v : Value) : Nat := strWidth v.toStr

/-! ### Value limiters (value.rs)

The pattern field holds a compiled regex in the source; the external
regex engine is embedded as the boolean matching function it denotes. -/

/-- Per-column validation rule (ValueLimiter). -/
structure ValueLimiter where
  value_type : ValueType := .text
  default : Option Value := none
  variant : Option (List Value) := none
  pattern : Option (Str → Bool) := none

/-- The default limiter: unconstrained text. -/
def ValueLimiter.defaultLimiter : ValueLimiter := {}

/-- ValueLimiter::is_convertible: whether the value can be converted to
the type of the limiter. -/
def ValueLimiter.isConvertible (lim : ValueLimiter) (value : Value) : Option ValueType :=
  match lim.value_type with
  | .number =>
      match value with
      | .text text =>
          if text = [] then some .number
          else
            match parseIsize text with
            | some _ => some .number
            | none => none
      | .number _ => some .number
  | .text => some .text

/-- ValueLimiter::qualify: the type must match and the value must belong
to the variant set or match the pattern, when one is configured. -/
def ValueLimiter.qualify (lim : ValueLimiter) (value : Value) : Bool :=
  if value.getType ≠ lim.value_type then false
  else
    match value with
    | .number num =>
        match lim.variant with
        | some variant => decide (value ∈ variant)
        | none =>
            match lim.pattern with
            | some pattern => pattern (intToStr num)
            | none => true
    | .text text =>
        match lim.variant with
        | some variant => decide (value ∈ variant)
        | none =>
            match lim.pattern with
            | some pattern => pattern text
            | none => true

/-! ### Columns and rows (virtual_data.rs) -/

/-- Column of a container: name, declared type and limiter. -/
structure Column where
  name : Str
  column_type : ValueType
  limiter : ValueLimiter

/-- Column::empty: a text column with the default limiter. -/
def Column.emptyCol (name : Str) : Column :=
  { name := name, column_type := .text, limiter := ValueLimiter.defaultLimiter }

/-- Column::new. -/
def Column.new (name : Str) (column_type : ValueType) (limiter : Option ValueLimiter) : Column :=
  { name := name, column_type := column_type,
    limiter := limiter.getD ValueLimiter.defaultLimiter }

/-- Column::get_default_value: the default of the limiter, else the
first variant, else the empty value of the declared type. -/
def Column.getDefaultValue (col : Column) : Value :=
  match col.limiter.default with
  | some def_ => def_
  | none =>
      match col.limiter.variant with
      | some vec =>
          match vec with
          | v :: _ => v
          | [] => Value.empty col.column_type
      | none => Value.empty col.column_type

/-- Column::set_limiter: install a limiter on a column, retyping the
column to the type of the limiter. -/
def Column.applyLimiter (col : Column) (limiter : ValueLimiter) : Column :=
  { name := col.name, column_type := limiter.value_type, limiter := limiter }

/-- A VirtualData row.  The source stores cells in a HashMap keyed by
column name; the map is embedded as an association list whose insert
operation replaces an existing binding, matching HashMap::insert. -/
structure Row where
  values : List (Str × Value)
deriving DecidableEq

/-- Row::new. -/
def Row.newRow : Row := { values := [] }

/-- Row::get_cell_value: lookup by key. -/
def Row.getCellValue (r : Row) (key : Str) : Option Value :=
  (r.values.find? (fun p => p.1 = key)).map (·.2)

/-- Replace the binding of a key in an association list, or append a new
binding, as HashMap::insert does. -/
def assocInsert (l : List (Str × Value)) (key : Str) (value : Value) : List (Str × Value) :=
  match l with
  | [] => [(key, value)]
  | p :: rest => if p.1 = key then (key, value) :: rest else p :: assocInsert rest key value

/-- Update the binding of a key only when it is present, as
HashMap::get_mut followed by an assignment does. -/
def assocUpdate (l : List (Str × Value)) (key : Str) (value : Value) : List (Str × Value) :=
  match l with
  | [] => []
  | p :: rest => if p.1 = key then (key, value) :: rest else p :: assocUpdate rest key value

/-- Remove the binding of a key, as HashMap::remove does. -/
def assocRemove (l : List (Str × Value)) (key : Str) : List (Str × Value) :=
  match l with
  | [] => []
  | p :: rest => if p.1 = key then rest else p :: assocRemove rest key

/-- Row::insert_cell. -/
def Row.insertCell (r : Row) (key : Str) (value : Value) : Row :=
  { values := assocInsert r.values key value }

/-- Row::update_cell_value: silently does nothing when the key is
absent. -/
def Row.updateCellValue (r : Row) (key : Str) (value : Value) : Row :=
  { values := assocUpdate r.values key value }

/-- Row::remove_cell. -/
def Row.removeCell (r : Row) (key : Str) : Row :=
  { values := assocRemove r.values key }

/-- Row::rename_column: removes the old binding and, when it existed,
inserts its value under the new name. -/
def Row.renameColumn (r : Row) (name new_name : Str) : Row :=
  match r.getCellValue name with
  | some prev => Row.insertCell { values := assocRemove r.values name } new_name prev
  | none => { values := assocRemove r.values name }

/-- Row::to_vector: the values of the row in the order of the given
columns; fails when a column has no binding. -/
def Row.toVector (r : Row) (columns : List Column) : Except DcsvError (List Value) :=
  match columns with
  | [] => .ok []
  | col :: rest =>
      match r.getCellValue col.name with
      | none => .error .invalidColumn
      | some v =>
          match r.toVector rest with
          | .error e => .error e
          | .ok acc => .ok (v :: acc)

/-- Row::get_iterator: the values of the row in column order, skipping
columns with no binding. -/
def Row.getIterator (r : Row) (columns : List Column) : List Value :=
  columns.filterMap (fun col => r.getCellValue col.name)

/-- Row::change_cell_type: converts the cell value in place to the
target type; an empty text converts to the number zero; does nothing when
the key is absent. -/
def Row.changeCellType (r : Row) (key : Str) (target_type : ValueType) :
    Except DcsvError Row :=
  match r.getCellValue key with
  | none => .ok r
  | some v =>
      match v with
      | .text t =>
          match target_type with
          | .number =>
              if t = [] then .ok (r.updateCellValue key (.number 0))
              else
                match parseIsize t with
                | none => .error .invalidCellData
                | some n => .ok (r.updateCellValue key (.number n))
          | .text => .ok r
      | .number n =>
          match target_type with
          | .text => .ok (r.updateCellValue key (.text (intToStr n)))
          | .number => .ok r

/-! ### Width metadata (meta.rs)

Meta::set_width, Meta::update_width and Meta::update_width_from_value
are declared by callers throughout virtual_data.rs; set_width and
update_width_from_value are modelled from the spec (incremental widening
on insert and update, direct replacement on full rescan). -/

/-- Per-column maximum observed display width. -/
structure Meta where
  max_unicode_width : Nat
deriving DecidableEq

/-- Meta::new. -/
def Meta.newMeta : Meta := { max_unicode_width := 0 }

/-- Meta::set_width: replace the tracked width. -/
def Meta.setWidth (_ : Meta) (w : Nat) : Meta := { max_unicode_width := w }

/-- Meta::update_width: widen the tracked width. -/
def Meta.updateWidth (m : Meta) (w : Nat) : Meta :=
  { max_unicode_width := max m.max_unicode_width w }

/-- Meta::update_width_from_value: widen by the display width of a
value. -/
def Meta.updateWidthFromValue (m : Meta) (v : Value) : Meta :=
  m.updateWidth v.getWidth

/-- Widen a prefix of the meta list from a value list, as
`metas.iter_mut().zip(values)` does: the zip stops at the shorter
list and later metas are untouched. -/
def updateMetasZip : List Meta → List Value → List Meta
  | metas, [] => metas
  | [], _ => []
  | m :: ms, v :: vs => m.updateWidthFromValue v :: updateMetasZip ms vs

/-! ### The containers -/

/-- Cell alignment for the formatted table.  Modelled from the spec:
CellAlignType is declared in the crate root, which is not among the
provided sources; the spec names the four alignments None, Left, Right
and Center. -/
inductive CellAlignType where
  | noAlign
  | left
  | right
  | center
deriving DecidableEq

/-- The name-keyed container (virtual_data.rs). -/
structure VirtualData where
  metas : List Meta
  columns : List Column
  rows : List Row

/-- VirtualData::new. -/
def VirtualData.newData : VirtualData := { metas := [], columns := [], rows := [] }

/-- VirtualData::get_row_count. -/
def VirtualData.getRowCount (d : VirtualData) : Nat := d.rows.length

/-- VirtualData::get_column_count. -/
def VirtualData.getColumnCount (d : VirtualData) : Nat := d.columns.length

/-- VirtualData::drop_data: clears columns and rows (metas are kept, as
in the source). -/
def VirtualData.dropData (d : VirtualData) : VirtualData :=
  { d with columns := [], rows := [] }

/-- The positional container (virtual_array.rs). -/
structure VirtualArray where
  metas : List Meta
  columns : List Column
  rows : List (List Value)

/-- VirtualArray::new. -/
def VirtualArray.newArray : VirtualArray := { metas := [], columns := [], rows := [] }

/-- VirtualArray::get_row_count. -/
def VirtualArray.getRowCount (a : VirtualArray) : Nat := a.rows.length

/-- VirtualArray::get_column_count. -/
def VirtualArray.getColumnCount (a : VirtualArray) : Nat := a.columns.length

/-- VirtualArray::drop_data. -/
def VirtualArray.dropData (a : VirtualArray) : VirtualArray :=
  { a with columns := [], rows := [] }

/-! ### The streaming parser (parser.rs) -/

/-- Whether a character has the Unicode White_Space property, as Rust
char::is_whitespace and str::trim use. -/
def isRustWhitespace (c : Char) : Bool :=
  c.toNat ∈ [0x9, 0xA, 0xB, 0xC, 0xD, 0x20, 0x85, 0xA0, 0x1680,
    0x2000, 0x2001, 0x2002, 0x2003, 0x2004, 0x2005, 0x2006, 0x2007,
    0x2008, 0x2009, 0x200A, 0x2028, 0x2029, 0x202F, 0x205F, 0x3000]

/-- Rust str::trim: strip White_Space characters from both ends. -/
def rustTrim (s : Str) : Str :=
  ((s.dropWhile isRustWhitespace).reverse.dropWhile isRustWhitespace).reverse

/-- Rust str::replace of a carriage return and line feed pair by a line
feed, leftmost first. -/
def crlfNormalize : Str → Str
  | [] => []
  | [c] => [c]
  | c1 :: c2 :: rest =>
      if c1 = '\r' ∧ c2 = '\n' then '\n' :: crlfNormalize rest
      else c1 :: crlfNormalize (c2 :: rest)

/-- Helper of `splitWhitespace`, accumulating the current word in
reverse. -/
def splitWhitespaceAux : Str → Str → List Str
  | [], acc => if acc.isEmpty then [] else [acc.reverse]
  | c :: rest, acc =>
      if isRustWhitespace c then
        if acc.isEmpty then splitWhitespaceAux rest []
        else acc.reverse :: splitWhitespaceAux rest []
      else splitWhitespaceAux rest (c :: acc)

/-- Rust str::split_whitespace: the maximal non-whitespace runs. -/
def splitWhitespace (s : Str) : List Str := splitWhitespaceAux s []

/-- Parser state (struct Parser). -/
structure Parser where
  container : List Str
  remnant : Str
  on_quote : Bool
  line_delimiter : Option Char

/-- Parser::new. -/
def Parser.newParser : Parser :=
  { container := [], remnant := [], on_quote := false, line_delimiter := none }

/-- Parser::reset: clears everything except the configured line
delimiter. -/
def Parser.reset (p : Parser) : Parser :=
  { p with container := [], remnant := [], on_quote := false }

/-- State of the character scan inside Parser::feed_chunk: the flushed
fields, the field being accumulated, the quote flag and the previous
character. -/
structure FeedState where
  container : List Str
  value : Str
  on_quote : Bool
  previous : Char
deriving DecidableEq

/-- The character loop of Parser::feed_chunk.  The match arms are tried
in source order: the field delimiter first (flushing the current field
when outside quotes, otherwise falling through to the append), then the
double quote (with one character of lookahead for the escaped-quote
pair), then any other character.  Every non-continue path appends the
scanned character to the current field. -/
def feedLoop (dc : Char) (consume_dquote : Bool) : Str → FeedState → FeedState
  | [], st => st
  | ch :: rest, st =>
      if ch = dc then
        if st.on_quote then
          feedLoop dc consume_dquote rest { st with value := st.value ++ [ch] }
        else
          feedLoop dc consume_dquote rest
            { container := st.container ++ [st.value], value := [],
              on_quote := st.on_quote, previous := ch }
      else if ch = '"' then
        if st.previous = '"' then
          feedLoop dc consume_dquote rest
            { st with value := st.value ++ [ch], previous := ' ' }
        else
          let q := if rest.head? = some '"' then st.on_quote else !st.on_quote
          if consume_dquote then
            feedLoop dc consume_dquote rest { st with on_quote := q, previous := '"' }
          else
            feedLoop dc consume_dquote rest
              { st with value := st.value ++ [ch], on_quote := q, previous := '"' }
      else
        feedLoop dc consume_dquote rest { st with value := st.value ++ [ch], previous := ch }

/-- Rust str::strip_suffix for a single character. -/
def stripSuffixChar (s : Str) (c : Char) : Option Str :=
  if s.getLast? = some c then some s.dropLast else none

/-- Parser::feed_chunk.  The chunk is already decoded (decoding failure
of invalid byte sequences is a panic of the source outside this model);
a carriage return and line feed pair is normalized first.  Returns the
updated parser and, when the quote state is closed at the end of the
chunk, the completed row.  Note that the final unflushed field is kept
only when it is non-empty or the previous character was a literal comma
(the source tests against a hard-coded comma, not the configured
delimiter). -/
def Parser.feedChunk (p : Parser) (chunk : Str) (delim : Option Char)
    (space_dlimited consume_dquote _allow_invalid_string : Bool) :
    Parser × Option (List Str) :=
  let line := crlfNormalize chunk
  if space_dlimited then (p, some (splitWhitespace line))
  else
    let st := feedLoop (delim.getD ',') consume_dquote line
      { container := p.container, value := p.remnant, on_quote := p.on_quote,
        previous := '0' }
    if st.on_quote then
      ({ p with container := st.container, remnant := st.value, on_quote := true }, none)
    else
      let fin :=
        if st.value ≠ [] ∨ st.previous = ',' then
          match stripSuffixChar st.value (p.line_delimiter.getD '\n') with
          | some stripped => st.container ++ [stripped]
          | none => st.container ++ [st.value]
        else st.container
      ({ p with container := [], remnant := [], on_quote := false }, some fin)

/-! ### VirtualData query helpers (virtual_data.rs) -/

/-- VirtualData::try_get_column_index: a source that parses as usize is
treated as an index (valid when below the column count); otherwise the
first column with that name is looked up. -/
def VirtualData.tryGetColumnIndex (d : VirtualData) (src : Str) : Option Nat :=
  match parseUsizeRust src with
  | none => d.columns.findIdx? (fun c => c.name = src)
  | some index => if index < d.getColumnCount then some index else none

/-- VirtualData::is_valid_cell_coordinate. -/
def VirtualData.isValidCellCoordinate (d : VirtualData) (x y : Nat) : Bool :=
  x < d.getRowCount && y < d.getColumnCount

/-- VirtualData::get_column_if_valid. -/
def VirtualData.getColumnIfValid (d : VirtualData) (x y : Nat) : Except DcsvError Column :=
  if d.isValidCellCoordinate x y then
    match d.columns.get? y with
    | some col => .ok col
    | none => .error .outOfRangeError
  else .error .outOfRangeError

/-- VirtualData::check_row_length. -/
def VirtualData.checkRowLength (d : VirtualData) (values : List Value) : Option DcsvError :=
  if d.getColumnCount = values.length then none else some .invalidRowData

/-- VirtualData::get_column_iterator: the cells of one column, top to
bottom, skipping rows with no binding. -/
def VirtualData.getColumnIterator (d : VirtualData) (column_index : Nat) :
    Except DcsvError (List Value) :=
  match d.columns.get? column_index with
  | none => .error .outOfRangeError
  | some col =>
      .ok ((List.range d.getRowCount).filterMap
        (fun idx => (d.rows.get? idx).bind (fun r => r.getCellValue col.name)))

/-- VirtualData::get_cell. -/
def VirtualData.getCell (d : VirtualData) (x y : Nat) : Option Value :=
  match d.getColumnIfValid x y with
  | .ok column => (d.rows.get? x).bind (fun r => r.getCellValue column.name)
  | .error _ => none

/-! ### VirtualData mutations -/

/-- VirtualData::set_row: the length check, the coordinate check and the
qualification loop all run before any write; on success every meta is
widened and every cell of the row is updated in column order.  The write
loop indexes `metas[idx]` for every column index, so it panics (none)
when the meta list is shorter than the column list; no check precedes
the error returns, which leave the container untouched. -/
def VirtualData.setRow (d : VirtualData) (row_index : Nat) (values : List Value) :
    Option (VirtualData × Option DcsvError) :=
  if values.length ≠ d.getColumnCount then some (d, some .insufficientRowData)
  else if ¬ d.isValidCellCoordinate row_index 0 then some (d, some .outOfRangeError)
  else if (d.columns.zip values).any (fun cv => ¬ cv.1.limiter.qualify cv.2) then
    some (d, some .invalidRowData)
  else if d.metas.length < d.columns.length then none
  else
    let metas := updateMetasZip d.metas values
    let rows := d.rows.modify
      (fun row => (d.columns.zip values).foldl
        (fun r cv => r.updateCellValue cv.1.name cv.2) row) row_index
    some ({ d with metas := metas, rows := rows }, none)

/-- VirtualData::insert_row: index bound, length and qualification
checks, then the new row is assembled cell by cell, metas are widened
from its column-ordered vector and the row is inserted. -/
def VirtualData.insertRow (d : VirtualData) (row_index : Nat) (source : Option (List Value)) :
    VirtualData × Option DcsvError :=
  if row_index > d.getRowCount then (d, some .invalidColumn)
  else
    let built : Except DcsvError Row :=
      match source with
      | some source =>
          match d.checkRowLength source with
          | some e => .error e
          | none =>
              if (d.columns.zip source).any (fun cv => ¬ cv.1.limiter.qualify cv.2) then
                .error .invalidRowData
              else
                .ok ((d.columns.zip source).foldl
                  (fun r cv => r.insertCell cv.1.name cv.2) Row.newRow)
      | none =>
          .ok (d.columns.foldl (fun r col => r.insertCell col.name col.getDefaultValue)
            Row.newRow)
    match built with
    | .error e => (d, some e)
    | .ok new_row =>
        match new_row.toVector d.columns with
        | .error e => (d, some e)
        | .ok vec =>
            ({ d with metas := updateMetasZip d.metas vec,
                      rows := d.rows.insertIdx row_index new_row }, none)

/-- VirtualData::insert_column (the plain variant used by the reader):
creates a text column with the default limiter, gives every existing row
the default cell and inserts a fresh meta sized from the name and the
default value. -/
def VirtualData.insertColumn (d : VirtualData) (column_index : Nat) (column_name : Str) :
    VirtualData × Option DcsvError :=
  if column_index > d.getColumnCount then (d, some .invalidColumn)
  else if (d.tryGetColumnIndex column_name).isSome then (d, some .invalidColumn)
  else
    let new_column := Column.new column_name .text none
    let default_value := new_column.getDefaultValue
    let rows := d.rows.map (fun r => r.insertCell new_column.name default_value)
    let meta := Meta.newMeta.setWidth (max (strWidth column_name) default_value.getWidth)
    ({ metas := d.metas.insertIdx column_index meta,
       columns := d.columns.insertIdx column_index new_column,
       rows := rows }, none)

/-- VirtualData::delete_row.  Returns none when the source panics:
the guard only rejects `row_count < row_index`, so an index equal to the
row count reaches `rows.remove(row_index)`, which is out of bounds.
After a successful removal, every column whose removed cell reached the
tracked maximum width is rescanned in full. -/
def VirtualData.deleteRow (d : VirtualData) (row_index : Nat) :
    Option (VirtualData × Bool) :=
  let row_count := d.getRowCount
  if row_count = 0 ∨ row_count < row_index then some (d, false)
  else
    match d.rows.get? row_index with
    | none => none
    | some removed =>
        let d1 : VirtualData := { d with rows := d.rows.eraseIdx row_index }
        let to_be_updated :=
          ((removed.getIterator d.columns).enum.zip d.metas).filterMap
            (fun im => if im.1.2.getWidth ≥ im.2.max_unicode_width then some im.1.1 else none)
        let rescanned :=
          to_be_updated.foldlM
            (fun (metas : List Meta) idx =>
              match d1.getColumnIterator idx with
              | .error _ => none
              | .ok cells =>
                  some (metas.set idx
                    (Meta.newMeta.setWidth
                      (cells.foldl (fun acc c => max acc c.getWidth) 0))))
            d1.metas
        match rescanned with
        | none => none
        | some metas => some ({ d1 with metas := metas }, true)

/-! ### The row and column move walk

Both containers move an element by a walk of adjacent swaps (the
Ordering::Greater arm walks the source element down toward a smaller
target index, the Ordering::Less arm walks it up).  The walks are
embedded with their iteration count (the distance between source and
target) computed up front, which is exactly how often the while loops of
the source run. -/

/-- Vec::swap of two in-range positions. -/
def listSwap (l : List α) (i j : Nat) : List α :=
  match l.get? i, l.get? j with
  | some a, some b => (l.set i b).set j a
  | _, _ => l

/-- The Ordering::Greater walk: swap the element at `index` with its
left neighbour, `steps` times. -/
def moveLeftSteps (l : List α) (index : Nat) : Nat → List α
  | 0 => l
  | k + 1 => moveLeftSteps (listSwap l index (index - 1)) (index - 1) k

/-- The Ordering::Less walk: swap the element at `index` with its right
neighbour, `steps` times. -/
def moveRightSteps (l : List α) (index : Nat) : Nat → List α
  | 0 => l
  | k + 1 => moveRightSteps (listSwap l index (index + 1)) (index + 1) k

/-- The common move algorithm of move_row and move_column. -/
def moveList (l : List α) (src_index target_index : Nat) : List α :=
  if src_index > target_index then moveLeftSteps l src_index (src_index - target_index)
  else if src_index < target_index then moveRightSteps l src_index (target_index - src_index)
  else l

/-- VirtualData::move_row. -/
def VirtualData.moveRow (d : VirtualData) (src_index target_index : Nat) :
    VirtualData × Option DcsvError :=
  if src_index ≥ d.getRowCount ∨ target_index ≥ d.getRowCount then
    (d, some .outOfRangeError)
  else ({ d with rows := moveList d.rows src_index target_index }, none)

/-- VirtualData::move_column: columns and metas are swapped in
lockstep. -/
def VirtualData.moveColumn (d : VirtualData) (src_index target_index : Nat) :
    VirtualData × Option DcsvError :=
  if src_index ≥ d.getColumnCount ∨ target_index ≥ d.getColumnCount then
    (d, some .outOfRangeError)
  else
    ({ d with columns := moveList d.columns src_index target_index,
              metas := moveList d.metas src_index target_index }, none)

/-! ### VirtualArray operations (virtual_array.rs) -/

/-- VirtualArray::is_valid_cell_coordinate. -/
def VirtualArray.isValidCellCoordinate (a : VirtualArray) (x y : Nat) : Bool :=
  x < a.getRowCount && y < a.getColumnCount

/-- VirtualArray::check_row_length. -/
def VirtualArray.checkRowLength (a : VirtualArray) (values : List Value) : Option DcsvError :=
  if a.getColumnCount = values.length then none else some .invalidRowData

/-- VirtualArray::get_column_iterator.  Returns none on the panic of the
source when some row is shorter than the column index. -/
def VirtualArray.getColumnIterator (a : VirtualArray) (column_index : Nat) :
    Except DcsvError (Option (List Value)) :=
  if a.columns.length ≤ column_index then .error .outOfRangeError
  else .ok (a.rows.mapM (fun s => s.get? column_index))

/-- VirtualArray::insert_row. -/
def VirtualArray.insertRow (a : VirtualArray) (row_index : Nat) (source : Option (List Value)) :
    VirtualArray × Option DcsvError :=
  if row_index > a.getRowCount then (a, some .invalidColumn)
  else
    match source with
    | some source =>
        match a.checkRowLength source with
        | some e => (a, some e)
        | none =>
            ({ a with metas := updateMetasZip a.metas source,
                      rows := a.rows.insertIdx row_index source }, none)
    | none =>
        let row := List.replicate a.columns.length (Value.text [])
        ({ a with metas := updateMetasZip a.metas row,
                  rows := a.rows.insertIdx row_index row }, none)

/-- VirtualArray::delete_row, with the same out-of-bounds panic as the
VirtualData variant, modelled as none. -/
def VirtualArray.deleteRow (a : VirtualArray) (row_index : Nat) :
    Option (VirtualArray × Bool) :=
  let row_count := a.getRowCount
  if row_count = 0 ∨ row_count < row_index then some (a, false)
  else
    match a.rows.get? row_index with
    | none => none
    | some removed =>
        let a1 : VirtualArray := { a with rows := a.rows.eraseIdx row_index }
        let to_be_updated :=
          (removed.enum.zip a.metas).filterMap
            (fun im => if im.1.2.getWidth ≥ im.2.max_unicode_width then some im.1.1 else none)
        let rescanned :=
          to_be_updated.foldlM
            (fun (metas : List Meta) idx =>
              match a1.getColumnIterator idx with
              | .error _ => none
              | .ok none => none
              | .ok (some cells) =>
                  some (metas.set idx
                    (Meta.newMeta.setWidth
                      (cells.foldl (fun acc c => max acc c.getWidth) 0))))
            a1.metas
        match rescanned with
        | none => none
        | some metas => some ({ a1 with metas := metas }, true)

/-- VirtualArray::move_row. -/
def VirtualArray.moveRow (a : VirtualArray) (src_index target_index : Nat) :
    VirtualArray × Option DcsvError :=
  if src_index ≥ a.getRowCount ∨ target_index ≥ a.getRowCount then
    (a, some .outOfRangeError)
  else ({ a with rows := moveList a.rows src_index target_index }, none)

/-- VirtualArray::move_column. -/
def VirtualArray.moveColumn (a : VirtualArray) (src_index target_index : Nat) :
    VirtualArray × Option DcsvError :=
  if src_index ≥ a.getColumnCount ∨ target_index ≥ a.getColumnCount then
    (a, some .outOfRangeError)
  else
    ({ a with columns := moveList a.columns src_index target_index,
              metas := moveList a.metas src_index target_index }, none)

/-! ### VirtualData::set_limiter -/

/-- One iteration of the row loop of VirtualData::set_limiter: probe
convertibility, qualify the converted value (or the original when no
conversion applies), then either abort (strict mode), convert the cell
in place, overwrite it with the default, or leave it untouched. -/
def setLimiterRowStep (name : Str) (limiter : ValueLimiter) (panic : Bool) (r : Row) :
    Row × Option DcsvError :=
  match r.getCellValue name with
  | none => (r, some .invalidRowData)
  | some value =>
      match limiter.isConvertible value with
      | some ttype =>
          match Value.fromStr value.toStr ttype with
          | .error e => (r, some e)
          | .ok converted =>
              if ¬ limiter.qualify converted then
                if panic then (r, some .invalidCellData)
                else
                  (r.updateCellValue name
                    (limiter.default.getD (Value.empty limiter.value_type)), none)
              else
                match r.changeCellType name ttype with
                | .error e => (r, some e)
                | .ok r2 => (r2, none)
      | none =>
          if ¬ limiter.qualify value then
            if panic then (r, some .invalidCellData)
            else
              (r.updateCellValue name
                (limiter.default.getD (Value.empty limiter.value_type)), none)
          else (r, none)

/-- The row loop of VirtualData::set_limiter; an error stops the loop
and leaves the remaining rows as they were. -/
def setLimiterRows (name : Str) (limiter : ValueLimiter) (panic : Bool) :
    List Row → List Row × Option DcsvError
  | [] => ([], none)
  | r :: rest =>
      match setLimiterRowStep name limiter panic r with
      | (r2, some e) => (r2 :: rest, some e)
      | (r2, none) =>
          let out := setLimiterRows name limiter panic rest
          (r2 :: out.1, out.2)

/-- VirtualData::set_limiter.  Indexing `columns[column]` panics (none)
when the index is out of range; the limiter is installed on the column
only after every row was processed successfully. -/
def VirtualData.setLimiter (d : VirtualData) (column : Nat) (limiter : ValueLimiter)
    (panic : Bool) : Option (VirtualData × Option DcsvError) :=
  match d.columns.get? column with
  | none => none
  | some col =>
      let out := setLimiterRows col.name limiter panic d.rows
      match out.2 with
      | some e => some ({ d with rows := out.1 }, some e)
      | none =>
          some ({ d with rows := out.1,
                         columns := d.columns.set column (col.applyLimiter limiter) },
            none)

/-! ### Formatted output (virtual_data.rs, get_string_table) -/

/-- A run of spaces. -/
def spaces (n : Nat) : Str := List.replicate n ' '

/-- The inner pad helper of get_string_table.  Returns none on the
panic branch (a cell wider than the column maximum).  For Center
alignment the leading share is the ceiling of half the padding — the
exact value of the f32 computation of the source for any realistic
width — and the rest follows the text. -/
def pad (target : Str) (max_width : Nat) (align_type : CellAlignType) : Option Str :=
  if align_type = .noAlign then some target
  else
    let t_len := strWidth target
    if t_len > max_width then none
    else
      match align_type with
      | .left => some (target ++ spaces (max_width - t_len))
      | .right => some (spaces (max_width - t_len) ++ target)
      | .center =>
          let leading := (max_width - t_len + 1) / 2
          let following := max_width - t_len - leading
          some (spaces leading ++ target ++ spaces following)
      | .noAlign => some target

/-- VirtualData::get_string_table: one padded line of column names, then
one padded line per row, each column as wide as the larger of its name
width and its tracked meta width. -/
def VirtualData.getStringTable (d : VirtualData) (align_type : CellAlignType) :
    Option (List (List Str)) :=
  let width_vector :=
    (d.columns.zip d.metas).map
      (fun cm => max (strWidth cm.1.name) cm.2.max_unicode_width)
  match (d.columns.zip width_vector).mapM (fun cw => pad cw.1.name cw.2 align_type) with
  | none => none
  | some column_row =>
      match d.rows.mapM (fun row =>
          ((d.columns.map (·.name)).zip width_vector).mapM (fun nw =>
            pad ((row.getCellValue nw.1).getD (Value.text [])).toStr nw.2 align_type)) with
      | none => none
      | some body => some (column_row :: body)

/-! ### Display rendering -/

/-- Join strings with a separator character between them. -/
def joinSep : List Str → Char → Str
  | [], _ => []
  | [x], _ => x
  | x :: y :: rest, c => x ++ c :: joinSep (y :: rest) c

/-- Display for VirtualData: the comma-joined column names, one
comma-joined line per row (missing cells render as empty text), each
line terminated by a newline, and the final trailing newline popped. -/
def VirtualData.displayData (d : VirtualData) : Str :=
  let column_row := joinSep (d.columns.map (·.name)) ',' ++ ['\n']
  let body := d.rows.map (fun row =>
    joinSep (d.columns.map
      (fun col => ((row.getCellValue col.name).getD (Value.text [])).toStr)) ','
      ++ ['\n'])
  (column_row ++ body.flatten).dropLast

/-- Display for VirtualArray: the newline-terminated header followed by
the newline-joined rows (no popping in this variant). -/
def VirtualArray.displayArray (a : VirtualArray) : Str :=
  let column_row := joinSep (a.columns.map (·.name)) ',' ++ ['\n']
  let body := joinSep (a.rows.map (fun row => joinSep (row.map Value.toStr) ',')) '\n'
  column_row ++ body

/-! ### The reader (reader.rs, utils.rs) -/

/-- Reader behaviour options. -/
structure ReaderOption where
  trim : Bool
  read_header : Bool
  consume_dquote : Bool
  custom_header : List Str
  delimiter : Option Char
  line_delimiter : Option Char
  ignore_empty_row : Bool
  allow_invalid_string : Bool

/-- ReaderOption::new. -/
def ReaderOption.newOption : ReaderOption :=
  { trim := false, read_header := true, consume_dquote := false, custom_header := [],
    delimiter := none, line_delimiter := none, ignore_empty_row := false,
    allow_invalid_string := false }

/-- The csv reader: its options and its parser. -/
structure Reader where
  option : ReaderOption
  parser : Parser

/-- Reader::new. -/
def Reader.newReader : Reader :=
  { option := ReaderOption.newOption, parser := Parser.newParser }

/-- The ALPHABET constant of utils.rs. -/
def ALPHABET : List Str := (s2l "abcdefghijklmnopqrstuvwxyz").map (fun c => [c])

/-- Rust str::repeat. -/
def strRepeat (s : Str) (n : Nat) : Str := (List.replicate n s).flatten

/-- make_arbitrary_column of reader.rs.  The one-based index is reduced
modulo 26 and then decremented; when the remainder is zero the
decrement underflows usize and the source panics (none). -/
def makeArbitraryColumn (size : Nat) : Option (List Str) :=
  (List.range size).mapM (fun idx =>
    let index := idx + 1
    match index % ALPHABET.length with
    | 0 => none
    | m + 1 =>
        (ALPHABET.get? m).map
          (fun target => strRepeat target (index / ALPHABET.length + 1)))

/-- add_multiple_columns of reader.rs: insert each name at successive
indices, stopping at the first error. -/
def addMultipleColumnsGo (d : VirtualData) (idx : Nat) :
    List Str → VirtualData × Option DcsvError
  | [] => (d, none)
  | col :: rest =>
      match d.insertColumn idx col with
      | (d2, some e) => (d2, some e)
      | (d2, none) => addMultipleColumnsGo d2 (idx + 1) rest

/-- add_multiple_columns of reader.rs. -/
def addMultipleColumns (d : VirtualData) (column_names : List Str) :
    VirtualData × Option DcsvError :=
  addMultipleColumnsGo d 0 column_names

/-- add_data_row of reader.rs: append the fields as text values. -/
def addDataRow (d : VirtualData) (row : List Str) : VirtualData × Option DcsvError :=
  d.insertRow d.getRowCount (some (row.map Value.text))

/-- add_array_row of reader.rs. -/
def addArrayRow (a : VirtualArray) (row : List Str) : VirtualArray × Option DcsvError :=
  a.insertRow a.getRowCount (some (row.map Value.text))

/-- The chunks produced by successive BufRead::read_until calls on the
input: each chunk ends with the delimiter, except possibly the last, and
reading at the end of the input produces nothing.  The delimiter is read
as a single byte by the source; only single-byte delimiters are
modelled. -/
def splitStream (d : Char) : Str → List Str
  | [] => []
  | c :: rest =>
      if c = d then [c] :: splitStream d rest
      else
        match splitStream d rest with
        | [] => [[c]]
        | chunk :: chunks => (c :: chunk) :: chunks

/-- The read loop of Reader::data_from_stream over the chunk list.  The
outer none records a panic of make_arbitrary_column.  A row consisting
of one blank field is skipped or rejected; the first substantial row
creates the header (a custom header and a synthesized header fall
through so that the row itself is also bound as data; a read header
consumes the row); every data row must match the column count exactly
and is appended through add_data_row. -/
def readerLoopVD (opt : ReaderOption) (p : Parser) (d : VirtualData) :
    List Str → Option (Except DcsvError VirtualData)
  | [] => some (.ok d)
  | chunk :: rest =>
      match p.feedChunk chunk opt.delimiter false opt.consume_dquote
          opt.allow_invalid_string with
      | (p2, none) => readerLoopVD opt p2 d rest
      | (p2, some row) =>
          if row.length = 1 ∧ (rustTrim (row.headD [])) = [] then
            if opt.ignore_empty_row then readerLoopVD opt p2 d rest
            else some (.error .invalidRowData)
          else if d.getColumnCount = 0 then
            if opt.custom_header ≠ [] then
              if opt.custom_header.length ≠ row.length then some (.error .invalidColumn)
              else
                match addMultipleColumns d opt.custom_header with
                | (_, some e) => some (.error e)
                | (d2, none) =>
                    if row.length ≠ d2.getColumnCount then some (.error .invalidRowData)
                    else
                      match addDataRow d2 (if opt.trim then row.map rustTrim else row) with
                      | (_, some e) => some (.error e)
                      | (d3, none) =>
                          readerLoopVD { opt with custom_header := [] } p2 d3 rest
            else if opt.read_header then
              match addMultipleColumns d (if opt.trim then row.map rustTrim else row) with
              | (_, some e) => some (.error e)
              | (d2, none) => readerLoopVD opt p2 d2 rest
            else
              match makeArbitraryColumn row.length with
              | none => none
              | some names =>
                  match addMultipleColumns d names with
                  | (_, some e) => some (.error e)
                  | (d2, none) =>
                      if row.length ≠ d2.getColumnCount then some (.error .invalidRowData)
                      else
                        match addDataRow d2 (if opt.trim then row.map rustTrim else row) with
                        | (_, some e) => some (.error e)
                        | (d3, none) => readerLoopVD opt p2 d3 rest
          else
            if row.length ≠ d.getColumnCount then some (.error .invalidRowData)
            else
              match addDataRow d (if opt.trim then row.map rustTrim else row) with
              | (_, some e) => some (.error e)
              | (d2, none) => readerLoopVD opt p2 d2 rest

/-- Reader::data_from_stream: reset the parser, split the stream at the
line delimiter and run the read loop from an empty container. -/
def Reader.dataFromStream (r : Reader) (input : Str) :
    Option (Except DcsvError VirtualData) :=
  let line_delimiter := r.option.line_delimiter.getD '\n'
  readerLoopVD r.option r.parser.reset VirtualData.newData (splitStream line_delimiter input)

/-- The read loop of Reader::array_from_stream.  Identical control flow
to the VirtualData loop, except that the header branches assign the
column list directly — without ever touching the meta list — and rows
are appended through add_array_row. -/
def readerLoopVA (opt : ReaderOption) (p : Parser) (a : VirtualArray) :
    List Str → Option (Except DcsvError VirtualArray)
  | [] => some (.ok a)
  | chunk :: rest =>
      match p.feedChunk chunk opt.delimiter false opt.consume_dquote
          opt.allow_invalid_string with
      | (p2, none) => readerLoopVA opt p2 a rest
      | (p2, some row) =>
          if row.length = 1 ∧ (rustTrim (row.headD [])) = [] then
            if opt.ignore_empty_row then readerLoopVA opt p2 a rest
            else some (.error .invalidRowData)
          else if a.getColumnCount = 0 then
            if opt.custom_header ≠ [] then
              if opt.custom_header.length ≠ row.length then some (.error .invalidColumn)
              else
                let a2 := { a with columns := opt.custom_header.map Column.emptyCol }
                if row.length ≠ a2.getColumnCount then some (.error .invalidRowData)
                else
                  match addArrayRow a2 (if opt.trim then row.map rustTrim else row) with
                  | (_, some e) => some (.error e)
                  | (a3, none) => readerLoopVA { opt with custom_header := [] } p2 a3 rest
            else if opt.read_header then
              let names := if opt.trim then row.map rustTrim else row
              readerLoopVA opt p2 { a with columns := names.map Column.emptyCol } rest
            else
              match makeArbitraryColumn row.length with
              | none => none
              | some names =>
                  let a2 := { a with columns := names.map Column.emptyCol }
                  if row.length ≠ a2.getColumnCount then some (.error .invalidRowData)
                  else
                    match addArrayRow a2 (if opt.trim then row.map rustTrim else row) with
                    | (_, some e) => some (.error e)
                    | (a3, none) => readerLoopVA opt p2 a3 rest
          else
            if row.length ≠ a.getColumnCount then some (.error .invalidRowData)
            else
              match addArrayRow a (if opt.trim then row.map rustTrim else row) with
              | (_, some e) => some (.error e)
              | (a2, none) => readerLoopVA opt p2 a2 rest

/-- Reader::array_from_stream. -/
def Reader.arrayFromStream (r : Reader) (input : Str) :
    Option (Except DcsvError VirtualArray) :=
  let line_delimiter := r.option.line_delimiter.getD '\n'
  readerLoopVA r.option r.parser.reset VirtualArray.newArray (splitStream line_delimiter input)

/-! ### Concrete containers used by individual claims -/

/-- A one-column, one-row VirtualData. -/
def oneRowData : VirtualData :=
  { metas := [⟨1⟩], columns := [Column.emptyCol (s2l "a")],
    rows := [{ values := [(s2l "a", Value.text (s2l "x"))] }] }

/-- A one-column, one-row VirtualArray. -/
def oneRowArray : VirtualArray :=
  { metas := [⟨1⟩], columns := [Column.emptyCol (s2l "a")],
    rows := [[Value.text (s2l "x")]] }

/-- A VirtualData whose column name is wider than its single cell, so
that centered padding is exercised with one leftover space. -/
def centerPadData : VirtualData :=
  { metas := [⟨1⟩], columns := [Column.emptyCol (s2l "ab")],
    rows := [{ values := [(s2l "ab", Value.text (s2l "a"))] }] }

/-! ### Association-list row lemmas -/

/-- Whether a row has a binding for a key. -/
def Row.hasKey (r : Row) (k : Str) : Bool := (r.getCellValue k).isSome

/-- A two-column VirtualData whose second column carries a variant
limiter allowing only the texts x and y, with default x. -/
def variantLimData : VirtualData :=
  { metas := [⟨1⟩, ⟨1⟩],
    columns := [Column.emptyCol (s2l "a"),
      { name := s2l "b", column_type := .text,
        limiter := { value_type := .text, default := some (.text (s2l "x")),
                     variant := some [.text (s2l "x"), .text (s2l "y")],
                     pattern := none } }],
    rows := [{ values := [(s2l "a", Value.text (s2l "1")),
                          (s2l "b", Value.text (s2l "x"))] }] }

/-- What a successful move does to a sequence: the moved element lands
on the target, the elements strictly between old and new position shift
by exactly one toward the source, and every other element stays at its
position (hence all non-participating elements keep their relative
order). -/
def MovedTo (l l2 : List α) (s t : Nat) : Prop :=
  l2.length = l.length ∧
  l2[t]? = l[s]? ∧
  (∀ i, i < min s t → l2[i]? = l[i]?) ∧
  (∀ i, max s t < i → l2[i]? = l[i]?) ∧
  (s < t → ∀ i, s ≤ i → i < t → l2[i]? = l[i + 1]?) ∧
  (t < s → ∀ i, t < i → i ≤ s → l2[i]? = l[i - 1]?)

/-- A four-row, one-column VirtualData for exercising row moves. -/
def moveExData : VirtualData :=
  { metas := [⟨1⟩],
    columns := [Column.emptyCol (s2l "a")],
    rows := [{ values := [(s2l "a", Value.text (s2l "r0"))] },
             { values := [(s2l "a", Value.text (s2l "r1"))] },
             { values := [(s2l "a", Value.text (s2l "r2"))] },
             { values := [(s2l "a", Value.text (s2l "r3"))] }] }

/-- A four-column, one-row VirtualArray for exercising column moves. -/
def moveExArray : VirtualArray :=
  { metas := [⟨1⟩, ⟨2⟩, ⟨3⟩, ⟨4⟩],
    columns := [Column.emptyCol (s2l "c0"), Column.emptyCol (s2l "c1"),
                Column.emptyCol (s2l "c2"), Column.emptyCol (s2l "c3")],
    rows := [[Value.text (s2l "v0"), Value.text (s2l "v1"),
              Value.text (s2l "v2"), Value.text (s2l "v3")]] }

/-! ### The limiter conversion and its round trip -/

/-- The value a cell is converted to when the limiter requests a type
conversion: the successful result of Value::from_str on the string form
of the cell. -/
def convertedValue (v : Value) (t : ValueType) : Value :=
  match Value.fromStr v.toStr t with
  | .ok cv => cv
  | .error _ => v

/-- What a lenient set_limiter does to one cell, as the claim describes
it: a convertible value becomes its conversion when that conversion
qualifies, and everything else becomes the limiter default, or the empty
value of the limiter type when there is no default. -/
def limiterResolve (lim : ValueLimiter) (v : Value) : Value :=
  match lim.isConvertible v with
  | some t =>
      if lim.qualify (convertedValue v t) then convertedValue v t
      else lim.default.getD (Value.empty lim.value_type)
  | none => lim.default.getD (Value.empty lim.value_type)

/-- A one-column VirtualData whose text cells 12 and xy meet a number
limiter with default 5 and variant set 5 or 12: the first converts in
place and qualifies, the second cannot convert and falls back to the
default. -/
def lenientLimData : VirtualData :=
  { metas := [⟨2⟩], columns := [Column.emptyCol (s2l "n")],
    rows := [{ values := [(s2l "n", Value.text (s2l "12"))] },
             { values := [(s2l "n", Value.text (s2l "xy"))] }] }

/-- A number limiter with default 5 and the variant set 5 or 12. -/
def lenientLim : ValueLimiter :=
  { value_type := .number, default := some (.number 5),
    variant := some [.number 5, .number 12], pattern := none }

/-! ### The display and reparse round trip

A rendered field survives the trip back through read_until, the crlf
normalization and the quote state machine exactly when it contains none
of the characters those stages interpret. -/

/-- Whether a string contains no field delimiter, double quote, line
feed or carriage return. -/
def safeFieldB (s : Str) : Bool :=
  s.all (fun c => c ≠ ',' && c ≠ '"' && c ≠ '\n' && c ≠ '\r')

/-- Whether the cell of a row under a column is a text value whose
content is safe. -/
def cellTextSafe (r : Row) (c : Column) : Bool :=
  match r.getCellValue c.name with
  | some (.text s) => safeFieldB s
  | _ => false

/-- The cell contents of a row in column order. -/
def rowVec (cols : List Column) (r : Row) : List (Option Value) :=
  cols.map (fun c => r.getCellValue c.name)

/-- The header line of the Display rendering. -/
def headerLine (cols : List Column) : Str := joinSep (cols.map Column.name) ','

/-- One data line of the VirtualData Display rendering. -/
def rowLine (cols : List Column) (r : Row) : Str :=
  joinSep (cols.map
    (fun c => ((r.getCellValue c.name).getD (Value.text [])).toStr)) ','

/-- One data line of the VirtualArray Display rendering. -/
def arrayRowLine (row : List Value) : Str := joinSep (row.map Value.toStr) ','

/-- The chunk list read_until produces from newline-joined lines: every
chunk keeps its newline except the last. -/
def chunksOf : List Str → List Str
  | [] => []
  | [x] => [x]
  | x :: y :: rest => (x ++ ['\n']) :: chunksOf (y :: rest)

/-- Guard for one-column containers: the reader treats a row whose
single field is blank as an empty row, so the round trip needs every
rendered field of a one-column container to keep a non-whitespace
character (multi-column rows always have at least two fields and are
never subject to the blank-row check). -/
def oneColGuardB (d : VirtualData) : Bool :=
  d.columns.length ≠ 1 ||
    (d.columns.all (fun c => ¬(rustTrim c.name).isEmpty) &&
     d.rows.all (fun r => d.columns.all (fun c =>
       match r.getCellValue c.name with
       | some (.text s) => ¬(rustTrim s).isEmpty
       | _ => false)))

/-- The one-column guard for arrays. -/
def oneColGuardArrB (a : VirtualArray) : Bool :=
  a.columns.length ≠ 1 ||
    (a.columns.all (fun c => ¬(rustTrim c.name).isEmpty) &&
     a.rows.all (fun row => row.all (fun v =>
       match v with
       | Value.text s => ¬(rustTrim s).isEmpty
       | _ => false)))

/-- The previous-character register after a field scan: the last
character of the field, or the fallback when the field is empty. -/
def lastCharD (f : Str) (p : Char) : Char := f.getLast?.getD p

/-- The last of a non-empty field list. -/
def lastField (f : Str) (fs : List Str) : Str := (f :: fs).getLast (by simp)

/-- All but the last of a non-empty field list. -/
def initFields (f : Str) (fs : List Str) : List Str := (f :: fs).dropLast

/-- The previous-character register at the end of a joined line scan:
the last character of the last field, falling back to the delimiter that
flushed the previous field, or to the initial register for a single
field line. -/
def prevEnd (dc : Char) (f : Str) (fs : List Str) (p : Char) : Char :=
  lastCharD (lastField f fs) (if fs.isEmpty then p else dc)

/-! ### Reconstruction of rows and columns by the reader -/

/-- The rendered cell contents of a row in column order. -/
def cellFields (cols : List Column) (r : Row) : List Str :=
  cols.map (fun c => ((r.getCellValue c.name).getD (Value.text [])).toStr)

/-- The row add_data_row builds from a parsed field list. -/
def builtRowOf (cols : List Column) (fields : List Str) : Row :=
  (cols.zip (fields.map Value.text)).foldl
    (fun r cv => r.insertCell cv.1.name cv.2) Row.newRow

/-- The columns add_multiple_columns builds from a header field list. -/
def headerCols (names : List Str) : List Column :=
  names.map (fun n => Column.new n .text none)

/-- The meta insert_column builds for one header column. -/
def headerMeta (n : Str) : Meta :=
  Meta.newMeta.setWidth (max (strWidth n) (Column.new n .text none).getDefaultValue.getWidth)

/-- Whether an array row has the given width and only safe text cells. -/
def arrayRowSafeB (ncols : Nat) (row : List Value) : Bool :=
  row.length = ncols &&
    row.all (fun v => match v with | Value.text s => safeFieldB s | _ => false)

/-- A container whose single text cell embeds the field delimiter: its
rendering reads back as two fields against one column. -/
def roundtripCexData : VirtualData :=
  { metas := [⟨3⟩], columns := [Column.emptyCol (s2l "a")],
    rows := [{ values := [(s2l "a", Value.text (s2l "b,c"))] }] }

/-- A two-column, two-row VirtualData exercising the round trip. -/
def roundtripWitnessData : VirtualData :=
  { metas := [⟨1⟩, ⟨1⟩],
    columns := [Column.emptyCol (s2l "x"), Column.emptyCol (s2l "y")],
    rows := [{ values := [(s2l "x", Value.text (s2l "1")), (s2l "y", Value.text (s2l "2"))] },
             { values := [(s2l "x", Value.text (s2l "3")), (s2l "y", Value.text (s2l "4"))] }] }

/-- A two-column, one-row VirtualArray exercising the round trip. -/
def roundtripWitnessArray : VirtualArray :=
  { metas := [⟨1⟩, ⟨1⟩],
    columns := [Column.emptyCol (s2l "x"), Column.emptyCol (s2l "y")],
    rows := [[Value.text (s2l "1"), Value.text (s2l "2")]] }


/-! ### Claim theorems -/

/-- C5: feeding the parser the line `a,"b,c",d` with a comma field
delimiter in quote-consuming mode produces exactly the fields
a, b-comma-c and d, and feeding `a,"b""c",d` produces a, b-quote-c and
d: the doubled double quote does not toggle the quote state and leaves
one literal quote character in the field. -/
theorem feed_chunk_quote_examples :
    (Parser.newParser.feedChunk (s2l "a,\"b,c\",d") (some ',') false true false).2 =
      some [s2l "a", s2l "b,c", s2l "d"] ∧
    (Parser.newParser.feedChunk (s2l "a,\"b\"\"c\",d") (some ',') false true false).2 =
      some [s2l "a", s2l "b\"c", s2l "d"] := by
  exact ⟨rfl, rfl⟩

/-- C6: with the configured field delimiter set to a semicolon, a chunk
that ends immediately after an unquoted delimiter drops the final empty
field (the source tests the previous character against a hard-coded
comma), returning one field where the claim demands two; with the
default comma delimiter the empty field is kept. -/
theorem feed_chunk_trailing_empty_field_dropped :
    (Parser.newParser.feedChunk (s2l "a;") (some ';') false false false).2 =
      some [s2l "a"] ∧
    (Parser.newParser.feedChunk (s2l "a,") (some ',') false false false).2 =
      some [s2l "a", []] := by
  exact ⟨rfl, rfl⟩

/-- C9: synthesized headerless column names are a, b, c for a three
field row, but the synthesis panics for any row of 26 or more fields
(the 26th name computes `26 % 26 - 1`, which underflows usize), so the
27th column named aa is never reached. -/
theorem make_arbitrary_column_panics_at_26 :
    makeArbitraryColumn 3 = some [s2l "a", s2l "b", s2l "c"] ∧
    makeArbitraryColumn 26 = none ∧
    makeArbitraryColumn 27 = none := by
  exact ⟨rfl, rfl, rfl⟩

/-- C7: a VirtualArray built by Reader::array_from_stream violates the
invariant that the meta list and the column list have equal length: the
header branches assign the column list directly and never create metas,
so reading a three-column csv yields three columns and zero metas. -/
theorem array_from_stream_breaks_meta_length_invariant :
    ∃ arr, Reader.newReader.arrayFromStream (s2l "a,b,c\n1,2,3") = some (.ok arr) ∧
      arr.columns.length = 3 ∧ arr.metas.length = 0 ∧
      arr.rows = [[Value.text (s2l "1"), Value.text (s2l "2"), Value.text (s2l "3")]] :=
  ⟨_, rfl, rfl, rfl, rfl⟩

/-- C2: delete_row only rejects indices strictly greater than the row
count, so deleting at an index equal to the row count reaches
`rows.remove` out of bounds and panics (none) on both containers, while
strictly larger stale indices return false and leave the container
unchanged. -/
theorem delete_row_panics_at_row_count :
    oneRowData.deleteRow 1 = none ∧
    oneRowArray.deleteRow 1 = none ∧
    oneRowData.deleteRow 2 = some (oneRowData, false) ∧
    oneRowArray.deleteRow 2 = some (oneRowArray, false) := by
  exact ⟨rfl, rfl, rfl, rfl⟩

/-- C8 counterexample: in get_string_table with Center alignment, the
one-space padding of a width-one cell in a width-two column is placed on
the left of the cell text, not on the right as the claim states. -/
theorem center_pad_puts_leftover_left_cex :
    centerPadData.getStringTable .center = some [[s2l "ab"], [s2l " a"]] ∧
    s2l " a" ≠ s2l "a " := by
  exact ⟨rfl, by decide⟩

/-- C8 amended: in the pad helper of get_string_table with Center
alignment, a cell narrower than the column maximum has its padding split
between both sides, the two shares sum to the whole padding, and when
the total padding is odd the leftover (larger) share of spaces is placed
on the left of the cell text. -/
theorem center_pad_leftover_on_left (target : Str) (max_width : Nat)
    (h : strWidth target < max_width) :
    pad target max_width .center =
      some (spaces ((max_width - strWidth target + 1) / 2) ++ target ++
        spaces ((max_width - strWidth target) / 2)) ∧
    (max_width - strWidth target + 1) / 2 + (max_width - strWidth target) / 2 =
      max_width - strWidth target ∧
    ((max_width - strWidth target) % 2 = 1 →
      (max_width - strWidth target + 1) / 2 = (max_width - strWidth target) / 2 + 1) := by
  have h2 : ¬ strWidth target > max_width := by omega
  have e : max_width - strWidth target - (max_width - strWidth target + 1) / 2 =
      (max_width - strWidth target) / 2 := by omega
  refine ⟨?_, by omega, fun _ => by omega⟩
  simp only [pad, if_neg h2, e]
  rfl

/-- C8 witness: the amended padding property at the concrete cell a in a
column of width two. -/
theorem center_pad_leftover_on_left_witness :
    pad (s2l "a") 2 .center =
      some (spaces ((2 - strWidth (s2l "a") + 1) / 2) ++ s2l "a" ++
        spaces ((2 - strWidth (s2l "a")) / 2)) ∧
    (2 - strWidth (s2l "a") + 1) / 2 + (2 - strWidth (s2l "a")) / 2 =
      2 - strWidth (s2l "a") ∧
    ((2 - strWidth (s2l "a")) % 2 = 1 →
      (2 - strWidth (s2l "a") + 1) / 2 = (2 - strWidth (s2l "a")) / 2 + 1) :=
  center_pad_leftover_on_left (s2l "a") 2 (by decide)

theorem getCellValue_update_self (r : Row) (k : Str) (v : Value)
    (h : r.hasKey k) : (r.updateCellValue k v).getCellValue k = some v := by
  rcases r with ⟨l⟩
  induction l with
  | nil => simp [Row.hasKey, Row.getCellValue, List.find?] at h
  | cons p rest ih =>
      by_cases hp : p.1 = k
      · simp [Row.updateCellValue, Row.getCellValue, assocUpdate, hp,
          List.find?_cons_of_pos]
      · have h2 : Row.hasKey ⟨rest⟩ k := by
          simpa [Row.hasKey, Row.getCellValue, List.find?_cons_of_neg, hp] using h
        simpa [Row.updateCellValue, Row.getCellValue, assocUpdate, hp,
          List.find?_cons_of_neg] using ih h2

theorem getCellValue_update_ne (r : Row) (k k2 : Str) (v : Value) (h : k ≠ k2) :
    (r.updateCellValue k v).getCellValue k2 = r.getCellValue k2 := by
  rcases r with ⟨l⟩
  induction l with
  | nil => simp [Row.updateCellValue, Row.getCellValue, assocUpdate]
  | cons p rest ih =>
      by_cases hp : p.1 = k
      · subst hp
        simp [Row.updateCellValue, Row.getCellValue, assocUpdate,
          List.find?_cons_of_neg, h, Ne.symm h]
      · by_cases hq : p.1 = k2
        · have hk2 : ¬ k2 = k := by rw [← hq]; exact hp
          simp [Row.updateCellValue, Row.getCellValue, assocUpdate, hp,
            List.find?_cons_of_pos, hq, hk2]
        · simpa [Row.updateCellValue, Row.getCellValue, assocUpdate, hp, hq,
            List.find?_cons_of_neg] using ih

theorem hasKey_update (r : Row) (k k2 : Str) (v : Value) :
    (r.updateCellValue k v).hasKey k2 = r.hasKey k2 := by
  rcases r with ⟨l⟩
  induction l with
  | nil => simp [Row.updateCellValue, Row.hasKey, Row.getCellValue, assocUpdate]
  | cons p rest ih =>
      by_cases hp : p.1 = k
      · by_cases hq : k = k2
        · subst hq
          simp [Row.updateCellValue, Row.hasKey, Row.getCellValue, assocUpdate, hp,
            List.find?_cons_of_pos]
        · have hpq : ¬ p.1 = k2 := by rw [hp]; exact hq
          simp [Row.updateCellValue, Row.hasKey, Row.getCellValue, assocUpdate, hp,
            List.find?_cons_of_neg, hq, hpq]
      · by_cases hq : p.1 = k2
        · have hk2 : ¬ k2 = k := by rw [← hq]; exact hp
          simp [Row.updateCellValue, Row.hasKey, Row.getCellValue, assocUpdate, hp,
            List.find?_cons_of_pos, hq, hk2]
        · simpa [Row.updateCellValue, Row.hasKey, Row.getCellValue, assocUpdate, hp, hq,
            List.find?_cons_of_neg] using ih

/-- A fold of cell updates over pairs whose names avoid a key leaves
that key unchanged. -/
theorem foldl_update_lookup_notmem (pairs : List (Column × Value)) (r : Row) (k : Str)
    (h : ∀ cv ∈ pairs, Column.name cv.1 ≠ k) :
    (pairs.foldl (fun r cv => r.updateCellValue cv.1.name cv.2) r).getCellValue k =
      r.getCellValue k := by
  induction pairs generalizing r with
  | nil => rfl
  | cons p rest ih =>
      have hp : Column.name p.1 ≠ k := h p (by simp)
      rw [List.foldl_cons, ih _ (fun cv hcv => h cv (by simp [hcv]))]
      exact getCellValue_update_ne r p.1.name k p.2 hp

/-- After folding the cell updates of a nodup list of name-value pairs
over a row that binds every involved name, each name looks up its paired
value. -/
theorem foldl_update_lookup (pairs : List (Column × Value)) (r : Row)
    (hnd : (pairs.map (fun cv => Column.name cv.1)).Nodup)
    (hpres : ∀ cv ∈ pairs, r.hasKey cv.1.name) :
    ∀ cv ∈ pairs,
      (pairs.foldl (fun r cv => r.updateCellValue cv.1.name cv.2) r).getCellValue
        cv.1.name = some cv.2 := by
  induction pairs generalizing r with
  | nil => intro cv hcv; simp at hcv
  | cons p rest ih =>
      intro cv hcv
      rw [List.map_cons, List.nodup_cons] at hnd
      rcases List.mem_cons.mp hcv with hcv | hcv
      · subst hcv
        rw [List.foldl_cons,
          foldl_update_lookup_notmem rest _ cv.1.name
            (fun q hq hqe => hnd.1 (hqe ▸ List.mem_map_of_mem _ hq))]
        exact getCellValue_update_self r cv.1.name cv.2 (hpres cv (by simp))
      · rw [List.foldl_cons]
        exact ih _ hnd.2
          (fun q hq => by rw [hasKey_update]; exact hpres q (List.mem_cons_of_mem _ hq))
          cv hcv

/-- Modifying a list at an index maps the element there. -/
theorem get?_modify_self (l : List α) (f : α → α) (i : Nat) :
    (l.modify f i).get? i = (l.get? i).map f := by
  induction l generalizing i with
  | nil => simp [List.modify]
  | cons a rest ih =>
      cases i with
      | zero => simp [List.modify]
      | succ n => simpa [List.modify] using ih n

/-- C3: on a valid row index, set_row returns InsufficientRowData when
the value list length differs from the column count; any qualification
failure returns an error with the container exactly as it was before the
call (no cell is written on any failure path); and when every value
qualifies, every cell of the addressed row is updated to its value. -/
theorem set_row_atomic (d : VirtualData) (row_index : Nat) (values : List Value)
    (hrow : row_index < d.rows.length) :
    (values.length ≠ d.columns.length →
      d.setRow row_index values = some (d, some .insufficientRowData)) ∧
    ((∃ cv ∈ d.columns.zip values, ¬ cv.1.limiter.qualify cv.2) →
      ∃ e, d.setRow row_index values = some (d, some e)) ∧
    (values.length = d.columns.length → 0 < d.columns.length →
      d.columns.length ≤ d.metas.length →
      (d.columns.map Column.name).Nodup →
      (∀ c ∈ d.columns, ∀ r ∈ d.rows, r.hasKey c.name) →
      (∀ cv ∈ d.columns.zip values, cv.1.limiter.qualify cv.2) →
      ∃ d2, d.setRow row_index values = some (d2, none) ∧
        ∀ cv ∈ d.columns.zip values,
          ((d2.rows.get? row_index).getD Row.newRow).getCellValue cv.1.name =
            some cv.2) := by
  refine ⟨?_, ?_, ?_⟩
  · intro h
    simp only [VirtualData.setRow, VirtualData.getColumnCount]
    rw [if_pos h]
  · rintro ⟨cv, hmem, hq⟩
    by_cases hlen : values.length = d.columns.length
    · refine ⟨.invalidRowData, ?_⟩
      have hcols : 0 < d.columns.length :=
        List.length_pos.mpr (List.ne_nil_of_mem (List.of_mem_zip hmem).1)
      have hcoord : d.isValidCellCoordinate row_index 0 = true := by
        simp [VirtualData.isValidCellCoordinate, VirtualData.getRowCount,
          VirtualData.getColumnCount, hrow, hcols]
      have hany : (d.columns.zip values).any
          (fun cv => decide (¬ cv.1.limiter.qualify cv.2)) = true := by
        rw [List.any_eq_true]
        exact ⟨cv, hmem, by simpa using hq⟩
      simp only [VirtualData.setRow, VirtualData.getColumnCount]
      rw [if_neg (fun h => h hlen), if_neg (by simp [hcoord]), if_pos hany]
    · exact ⟨.insufficientRowData, by
        simp only [VirtualData.setRow, VirtualData.getColumnCount]
        rw [if_pos hlen]⟩
  · intro hlen hcols hmetas hnd hpres hqual
    have hcoord : d.isValidCellCoordinate row_index 0 = true := by
      simp [VirtualData.isValidCellCoordinate, VirtualData.getRowCount,
        VirtualData.getColumnCount, hrow, hcols]
    have hany : ¬ ((d.columns.zip values).any
        (fun cv => decide (¬ cv.1.limiter.qualify cv.2)) = true) := by
      rw [List.any_eq_true]
      rintro ⟨cv, hmem, hq⟩
      exact absurd (hqual cv hmem) (by simpa using hq)
    refine ⟨{ d with metas := updateMetasZip d.metas values,
                     rows := d.rows.modify
                       (fun row => (d.columns.zip values).foldl
                         (fun r cv => r.updateCellValue cv.1.name cv.2) row) row_index },
      ?_, ?_⟩
    · simp only [VirtualData.setRow, VirtualData.getColumnCount]
      rw [if_neg (fun h => h hlen), if_neg (by simp [hcoord]), if_neg hany,
        if_neg (by omega)]
    · intro cv hmem
      simp only [VirtualData.setRow, VirtualData.getColumnCount]
      rw [get?_modify_self, List.get?_eq_get hrow]
      have hr0 : d.rows.get ⟨row_index, hrow⟩ ∈ d.rows :=
        List.get_mem d.rows row_index hrow
      have hndp : ((d.columns.zip values).map (fun cv => Column.name cv.1)).Nodup := by
        have hfst : (d.columns.zip values).map Prod.fst = d.columns :=
          List.map_fst_zip d.columns values (by omega)
        have heq : (d.columns.zip values).map (fun cv => Column.name cv.1) =
            ((d.columns.zip values).map Prod.fst).map Column.name := by
          rw [List.map_map]
          rfl
        rw [heq, hfst]
        exact hnd
      exact foldl_update_lookup (d.columns.zip values) _ hndp
        (fun q hq => hpres q.1 (List.of_mem_zip hq).1 _ hr0) cv hmem

/-- C3 witness: set_row on the concrete limited container returns
InsufficientRowData for a short list, an error leaving the container
untouched for a value outside the variant set, and updates every cell
for qualifying values. -/
theorem set_row_atomic_witness :
    variantLimData.setRow 0 [Value.text (s2l "q")] =
      some (variantLimData, some .insufficientRowData) ∧
    (∃ e, variantLimData.setRow 0 [Value.text (s2l "q"), Value.text (s2l "z")] =
      some (variantLimData, some e)) ∧
    (∃ d2, variantLimData.setRow 0 [Value.text (s2l "q"), Value.text (s2l "y")] =
      some (d2, none) ∧
      ∀ cv ∈ variantLimData.columns.zip [Value.text (s2l "q"), Value.text (s2l "y")],
        ((d2.rows.get? 0).getD Row.newRow).getCellValue cv.1.name = some cv.2) := by
  have h := set_row_atomic variantLimData 0 [Value.text (s2l "q")] (by decide)
  have h2 := set_row_atomic variantLimData 0
    [Value.text (s2l "q"), Value.text (s2l "z")] (by decide)
  have h3 := set_row_atomic variantLimData 0
    [Value.text (s2l "q"), Value.text (s2l "y")] (by decide)
  refine ⟨h.1 (by decide), h2.2.1 ?_, h3.2.2 (by decide) (by decide) (by decide)
    (by decide) (by decide) ?_⟩
  · refine ⟨(variantLimData.columns.get ⟨1, by decide⟩, Value.text (s2l "z")), ?_, ?_⟩
    · exact List.mem_cons_of_mem _ (List.mem_cons_self _ _)
    · decide
  · decide

/-! ### Characterization of the move walk -/

theorem listSwap_length (l : List α) (i j : Nat) :
    (listSwap l i j).length = l.length := by
  unfold listSwap
  cases h1 : l.get? i <;> cases h2 : l.get? j <;> simp

theorem listSwap_getElem? (l : List α) (i j n : Nat) (hi : i < l.length)
    (hj : j < l.length) :
    (listSwap l i j)[n]? = if n = j then l[i]? else if n = i then l[j]? else l[n]? := by
  unfold listSwap
  rw [List.get?_eq_get hi, List.get?_eq_get hj]
  show ((l.set i (l.get ⟨j, hj⟩)).set j (l.get ⟨i, hi⟩))[n]? = _
  by_cases hnj : n = j
  · subst hnj
    rw [if_pos rfl, List.getElem?_set_self (by simpa using hj)]
    exact ((List.getElem?_eq_getElem hi).symm : some (l.get ⟨i, hi⟩) = l[i]?)
  · rw [if_neg hnj, List.getElem?_set_ne (fun h => hnj h.symm)]
    by_cases hni : n = i
    · subst hni
      rw [if_pos rfl, List.getElem?_set_self hi]
      exact ((List.getElem?_eq_getElem hj).symm : some (l.get ⟨j, hj⟩) = l[j]?)
    · rw [if_neg hni, List.getElem?_set_ne (fun h => hni h.symm)]

theorem moveRightSteps_spec (k : Nat) :
    ∀ (l : List α) (s : Nat), s + k < l.length →
      (moveRightSteps l s k).length = l.length ∧
      (moveRightSteps l s k)[s + k]? = l[s]? ∧
      (∀ i, i < s → (moveRightSteps l s k)[i]? = l[i]?) ∧
      (∀ i, s ≤ i → i < s + k → (moveRightSteps l s k)[i]? = l[i + 1]?) ∧
      (∀ i, s + k < i → (moveRightSteps l s k)[i]? = l[i]?) := by
  induction k with
  | zero =>
      intro l s _
      refine ⟨rfl, rfl, fun _ _ => rfl, ?_, fun _ _ => rfl⟩
      intro i h1 h2
      omega
  | succ k ih =>
      intro l s h
      have hs1 : s + 1 < l.length := by omega
      have hs0 : s < l.length := by omega
      have hlenswap : (listSwap l s (s + 1)).length = l.length := listSwap_length l s (s + 1)
      obtain ⟨ha, hb, hc, hd, he⟩ := ih (listSwap l s (s + 1)) (s + 1) (by omega)
      have hswap : ∀ n, (listSwap l s (s + 1))[n]? =
          if n = s + 1 then l[s]? else if n = s then l[s + 1]? else l[n]? :=
        fun n => listSwap_getElem? l s (s + 1) n hs0 hs1
      have hstep : moveRightSteps l s (k + 1) =
          moveRightSteps (listSwap l s (s + 1)) (s + 1) k := rfl
      refine ⟨by rw [hstep, ha, hlenswap], ?_, ?_, ?_, ?_⟩
      · rw [hstep, show s + (k + 1) = s + 1 + k by omega, hb, hswap]
        simp
      · intro i hi
        rw [hstep, hc i (by omega), hswap, if_neg (by omega), if_neg (by omega)]
      · intro i hi1 hi2
        rcases Nat.eq_or_lt_of_le hi1 with hi | hi
        · rw [← hi]
          rw [hstep, hc s (by omega), hswap, if_neg (by omega), if_pos rfl]
        · rw [hstep, hd i (by omega) (by omega), hswap, if_neg (by omega),
            if_neg (by omega)]
      · intro i hi
        rw [hstep, he i (by omega), hswap, if_neg (by omega), if_neg (by omega)]

theorem moveLeftSteps_spec (k : Nat) :
    ∀ (l : List α) (s : Nat), k ≤ s → s < l.length →
      (moveLeftSteps l s k).length = l.length ∧
      (moveLeftSteps l s k)[s - k]? = l[s]? ∧
      (∀ i, i < s - k → (moveLeftSteps l s k)[i]? = l[i]?) ∧
      (∀ i, s - k < i → i ≤ s → (moveLeftSteps l s k)[i]? = l[i - 1]?) ∧
      (∀ i, s < i → (moveLeftSteps l s k)[i]? = l[i]?) := by
  induction k with
  | zero =>
      intro l s _ _
      refine ⟨rfl, rfl, fun _ _ => rfl, ?_, fun _ _ => rfl⟩
      intro i h1 h2
      omega
  | succ k ih =>
      intro l s hk hs
      have hs1 : s - 1 < l.length := by omega
      have hlenswap : (listSwap l s (s - 1)).length = l.length := listSwap_length l s (s - 1)
      obtain ⟨ha, hb, hc, hd, he⟩ := ih (listSwap l s (s - 1)) (s - 1) (by omega) (by omega)
      have hswap : ∀ n, (listSwap l s (s - 1))[n]? =
          if n = s - 1 then l[s]? else if n = s then l[s - 1]? else l[n]? :=
        fun n => listSwap_getElem? l s (s - 1) n hs hs1
      have hstep : moveLeftSteps l s (k + 1) =
          moveLeftSteps (listSwap l s (s - 1)) (s - 1) k := rfl
      refine ⟨by rw [hstep, ha, hlenswap], ?_, ?_, ?_, ?_⟩
      · rw [hstep, show s - (k + 1) = s - 1 - k by omega, hb, hswap]
        rw [if_pos (by omega)]
      · intro i hi
        rw [hstep, hc i (by omega), hswap, if_neg (by omega), if_neg (by omega)]
      · intro i hi1 hi2
        rcases Nat.eq_or_lt_of_le hi2 with hi | hi
        · rw [hi]
          rw [hstep, he s (by omega), hswap, if_neg (by omega), if_pos rfl]
        · rw [hstep, hd i (by omega) (by omega), hswap, if_neg (by omega),
            if_neg (by omega)]
      · intro i hi
        rw [hstep, he i (by omega), hswap, if_neg (by omega), if_neg (by omega)]

theorem moveList_movedTo (l : List α) (s t : Nat) (hs : s < l.length)
    (ht : t < l.length) : MovedTo l (moveList l s t) s t := by
  rcases Nat.lt_trichotomy s t with hlt | heq | hgt
  · have hmv : moveList l s t = moveRightSteps l s (t - s) := by
      unfold moveList
      rw [if_neg (by omega), if_pos hlt]
    obtain ⟨ha, hb, hc, hd, he⟩ := moveRightSteps_spec (t - s) l s (by omega)
    have hst : s + (t - s) = t := by omega
    rw [hst] at hb hd he
    rw [hmv]
    refine ⟨ha, hb, ?_, ?_, fun _ i h1 h2 => hd i h1 h2, fun h _ _ _ => absurd h (by omega)⟩
    · intro i hi
      exact hc i (by omega)
    · intro i hi
      exact he i (by omega)
  · subst heq
    have hmv : moveList l s s = l := by
      unfold moveList
      rw [if_neg (by omega), if_neg (by omega)]
    rw [hmv]
    exact ⟨rfl, rfl, fun _ _ => rfl, fun _ _ => rfl,
      fun h => absurd h (by omega), fun h => absurd h (by omega)⟩
  · have hmv : moveList l s t = moveLeftSteps l s (s - t) := by
      unfold moveList
      rw [if_pos hgt]
    obtain ⟨ha, hb, hc, hd, he⟩ := moveLeftSteps_spec (s - t) l s (by omega) hs
    have hst : s - (s - t) = t := by omega
    rw [hst] at hb hc hd
    rw [hmv]
    refine ⟨ha, hb, ?_, ?_, fun h => absurd h (by omega), fun _ i h1 h2 => hd i h1 h2⟩
    · intro i hi
      exact hc i (by omega)
    · intro i hi
      exact he i (by omega)

/-- C4: move_row and move_column on both containers fail with
OutOfRangeError, changing nothing, when either index is out of range;
for valid indices the element that started at the source index ends at
the target, every element strictly between shifts by exactly one
position toward the source, and all other elements (and for move_column
also the metas, moved in lockstep) keep their positions. -/
theorem move_ops_spec (d : VirtualData) (a : VirtualArray) (s t : Nat) :
    (s ≥ d.rows.length ∨ t ≥ d.rows.length →
      d.moveRow s t = (d, some .outOfRangeError)) ∧
    (s ≥ d.columns.length ∨ t ≥ d.columns.length →
      d.moveColumn s t = (d, some .outOfRangeError)) ∧
    (s ≥ a.rows.length ∨ t ≥ a.rows.length →
      a.moveRow s t = (a, some .outOfRangeError)) ∧
    (s ≥ a.columns.length ∨ t ≥ a.columns.length →
      a.moveColumn s t = (a, some .outOfRangeError)) ∧
    (s < d.rows.length → t < d.rows.length →
      ∃ d2, d.moveRow s t = (d2, none) ∧ MovedTo d.rows d2.rows s t) ∧
    (s < d.columns.length → t < d.columns.length →
      ∃ d2, d.moveColumn s t = (d2, none) ∧ MovedTo d.columns d2.columns s t ∧
        (s < d.metas.length → t < d.metas.length → MovedTo d.metas d2.metas s t)) ∧
    (s < a.rows.length → t < a.rows.length →
      ∃ a2, a.moveRow s t = (a2, none) ∧ MovedTo a.rows a2.rows s t) ∧
    (s < a.columns.length → t < a.columns.length →
      ∃ a2, a.moveColumn s t = (a2, none) ∧ MovedTo a.columns a2.columns s t ∧
        (s < a.metas.length → t < a.metas.length → MovedTo a.metas a2.metas s t)) := by
  refine ⟨?_, ?_, ?_, ?_, ?_, ?_, ?_, ?_⟩
  · intro h
    simp only [VirtualData.moveRow, VirtualData.getRowCount]
    rw [if_pos (by omega)]
  · intro h
    simp only [VirtualData.moveColumn, VirtualData.getColumnCount]
    rw [if_pos (by omega)]
  · intro h
    simp only [VirtualArray.moveRow, VirtualArray.getRowCount]
    rw [if_pos (by omega)]
  · intro h
    simp only [VirtualArray.moveColumn, VirtualArray.getColumnCount]
    rw [if_pos (by omega)]
  · intro hs ht
    refine ⟨{ d with rows := moveList d.rows s t }, ?_,
      moveList_movedTo d.rows s t hs ht⟩
    simp only [VirtualData.moveRow, VirtualData.getRowCount]
    rw [if_neg (by omega)]
  · intro hs ht
    refine ⟨{ d with columns := moveList d.columns s t, metas := moveList d.metas s t },
      ?_, moveList_movedTo d.columns s t hs ht,
      fun hms hmt => moveList_movedTo d.metas s t hms hmt⟩
    simp only [VirtualData.moveColumn, VirtualData.getColumnCount]
    rw [if_neg (by omega)]
  · intro hs ht
    refine ⟨{ a with rows := moveList a.rows s t }, ?_,
      moveList_movedTo a.rows s t hs ht⟩
    simp only [VirtualArray.moveRow, VirtualArray.getRowCount]
    rw [if_neg (by omega)]
  · intro hs ht
    refine ⟨{ a with columns := moveList a.columns s t, metas := moveList a.metas s t },
      ?_, moveList_movedTo a.columns s t hs ht,
      fun hms hmt => moveList_movedTo a.metas s t hms hmt⟩
    simp only [VirtualArray.moveColumn, VirtualArray.getColumnCount]
    rw [if_neg (by omega)]

/-- C4 witness: the move characterization at concrete containers —
moving row 1 to 3 of a four-row VirtualData, moving column 1 to 3 of a
four-column VirtualArray with its metas, and a stale source index
rejected with OutOfRangeError leaving the container unchanged. -/
theorem move_ops_spec_witness :
    (∃ d2, moveExData.moveRow 1 3 = (d2, none) ∧
      MovedTo moveExData.rows d2.rows 1 3) ∧
    (∃ a2, moveExArray.moveColumn 1 3 = (a2, none) ∧
      MovedTo moveExArray.columns a2.columns 1 3 ∧
      (1 < moveExArray.metas.length → 3 < moveExArray.metas.length →
        MovedTo moveExArray.metas a2.metas 1 3)) ∧
    moveExData.moveRow 4 0 = (moveExData, some .outOfRangeError) :=
  ⟨(move_ops_spec moveExData moveExArray 1 3).2.2.2.2.1 (by decide) (by decide),
   (move_ops_spec moveExData moveExArray 1 3).2.2.2.2.2.2.2 (by decide) (by decide),
   (move_ops_spec moveExData moveExArray 4 0).1 (Or.inl (by decide))⟩

/-! ### Decimal round trip -/

theorem toNat_digitChar (k : Nat) (h : k < 10) : (digitChar k).toNat = 48 + k := by
  interval_cases k <;> decide

theorem isDigitChar_digitChar (k : Nat) (h : k < 10) :
    isDigitChar (digitChar k) = true := by
  interval_cases k <;> decide

theorem digitVal_digitChar (k : Nat) (h : k < 10) : digitVal (digitChar k) = k := by
  interval_cases k <;> decide

theorem digitChar_ne_plus (k : Nat) (h : k < 10) : digitChar k ≠ '+' := by
  interval_cases k <;> decide

theorem digitChar_ne_minus (k : Nat) (h : k < 10) : digitChar k ≠ '-' := by
  interval_cases k <;> decide

theorem parseNatGo_append (s1 s2 : Str) (a : Nat) :
    parseNatGo (s1 ++ s2) a = (parseNatGo s1 a).bind (fun m => parseNatGo s2 m) := by
  induction s1 generalizing a with
  | nil => simp [parseNatGo]
  | cons c rest ih =>
      by_cases hc : isDigitChar c
      · simp [parseNatGo, hc, ih]
      · simp [parseNatGo, hc]

theorem natDigitsAux_ne_nil (fuel n : Nat) (h : n < fuel) : natDigitsAux fuel n ≠ [] := by
  cases fuel with
  | zero => omega
  | succ f =>
      unfold natDigitsAux
      by_cases h10 : n < 10
      · simp [h10]
      · simp [h10]

theorem natDigitsAux_head (fuel : Nat) :
    ∀ n, n < fuel → ∃ k rest, k < 10 ∧ natDigitsAux fuel n = digitChar k :: rest := by
  induction fuel with
  | zero => omega
  | succ f ih =>
      intro n hn
      by_cases h10 : n < 10
      · exact ⟨n, [], h10, by unfold natDigitsAux; rw [if_pos h10]⟩
      · have hdiv : n / 10 < f := by omega
        obtain ⟨k, rest, hk, heq⟩ := ih (n / 10) hdiv
        refine ⟨k, rest ++ [digitChar (n % 10)], hk, ?_⟩
        unfold natDigitsAux
        rw [if_neg h10, heq]
        rfl

theorem parseNatGo_natDigitsAux (fuel : Nat) :
    ∀ n, n < fuel → ∀ a, parseNatGo (natDigitsAux fuel n) a =
      some (a * 10 ^ (natDigitsAux fuel n).length + n) := by
  induction fuel with
  | zero => omega
  | succ f ih =>
      intro n hn a
      by_cases h10 : n < 10
      · unfold natDigitsAux
        rw [if_pos h10]
        simp [parseNatGo, isDigitChar_digitChar n h10, digitVal_digitChar n h10,
          pow_one]
      · have hdiv : n / 10 < f := by omega
        have hmodlt : n % 10 < 10 := by omega
        unfold natDigitsAux
        rw [if_neg h10, parseNatGo_append, ih (n / 10) hdiv a, Option.some_bind]
        have hlast : parseNatGo [digitChar (n % 10)]
            (a * 10 ^ (natDigitsAux f (n / 10)).length + n / 10) =
            some ((a * 10 ^ (natDigitsAux f (n / 10)).length + n / 10) * 10 + n % 10) := by
          simp [parseNatGo, isDigitChar_digitChar _ hmodlt, digitVal_digitChar _ hmodlt]
        rw [hlast]
        congr 1
        have hmod : n / 10 * 10 + n % 10 = n := by omega
        calc (a * 10 ^ (natDigitsAux f (n / 10)).length + n / 10) * 10 + n % 10
            = a * (10 ^ (natDigitsAux f (n / 10)).length * 10) +
              (n / 10 * 10 + n % 10) := by ring
          _ = a * 10 ^ ((natDigitsAux f (n / 10)).length + 1) + n := by
              rw [hmod, pow_succ]
          _ = a * 10 ^ (natDigitsAux f (n / 10) ++ [digitChar (n % 10)]).length + n := by
              rw [List.length_append, List.length_singleton]

theorem parseNatDigits_natToStr (n : Nat) : parseNatDigits (natToStr n) = some n := by
  have hne := natDigitsAux_ne_nil (n + 1) n (by omega)
  have hgo := parseNatGo_natDigitsAux (n + 1) n (by omega) 0
  unfold natToStr
  cases hd : natDigitsAux (n + 1) n with
  | nil => exact absurd hd hne
  | cons c rest =>
      rw [hd] at hgo
      simpa [parseNatDigits] using hgo

theorem parseIsize_intToStr (n : Int) : parseIsize (intToStr n) = some n := by
  cases n with
  | ofNat m =>
      obtain ⟨k, rest, hk, heq⟩ := natDigitsAux_head (m + 1) m (by omega)
      show parseIsize (natToStr m) = some (Int.ofNat m)
      unfold natToStr
      rw [heq]
      simp only [parseIsize]
      rw [if_neg (digitChar_ne_plus k hk), if_neg (digitChar_ne_minus k hk), ← heq]
      show (parseNatDigits (natToStr m)).map Int.ofNat = some (Int.ofNat m)
      rw [parseNatDigits_natToStr m]
      rfl
  | negSucc m =>
      show parseIsize ('-' :: natToStr (m + 1)) = some (Int.negSucc m)
      simp [parseIsize, parseNatDigits_natToStr (m + 1), Int.negSucc_eq]

theorem intToStr_ne_nil (n : Int) : intToStr n ≠ [] := by
  cases n with
  | ofNat m => exact natDigitsAux_ne_nil (m + 1) m (by omega)
  | negSucc m => simp [intToStr]

theorem fromStr_intToStr_number (n : Int) :
    Value.fromStr (intToStr n) .number = .ok (.number n) := by
  simp only [Value.fromStr]
  rw [if_neg (intToStr_ne_nil n), parseIsize_intToStr]

theorem convertedValue_of_ok {v : Value} {t : ValueType} {cv : Value}
    (h : Value.fromStr v.toStr t = .ok cv) :
    Value.fromStr v.toStr t = .ok (convertedValue v t) := by
  unfold convertedValue
  rw [h]

theorem fromStr_convertedValue (lim : ValueLimiter) (v : Value) (t : ValueType)
    (h : lim.isConvertible v = some t) :
    Value.fromStr v.toStr t = .ok (convertedValue v t) := by
  suffices hex : ∃ cv, Value.fromStr v.toStr t = .ok cv by
    obtain ⟨cv, hcv⟩ := hex
    exact convertedValue_of_ok hcv
  cases v with
  | text s =>
      cases htype : lim.value_type with
      | number =>
          simp only [ValueLimiter.isConvertible, htype] at h
          by_cases hs : s = []
          · rw [if_pos hs] at h
            have ht : t = ValueType.number := by simpa using h.symm
            subst ht
            subst hs
            exact ⟨Value.number 0, rfl⟩
          · rw [if_neg hs] at h
            cases hp : parseIsize s with
            | none => rw [hp] at h; simp at h
            | some k =>
                rw [hp] at h
                have ht : t = ValueType.number := by simpa using h.symm
                subst ht
                refine ⟨Value.number k, ?_⟩
                show Value.fromStr s .number = _
                simp only [Value.fromStr]
                rw [if_neg hs, hp]
      | text =>
          simp only [ValueLimiter.isConvertible, htype] at h
          have ht : t = ValueType.text := by simpa using h.symm
          subst ht
          exact ⟨Value.text s, rfl⟩
  | number nn =>
      cases htype : lim.value_type with
      | number =>
          simp only [ValueLimiter.isConvertible, htype] at h
          have ht : t = ValueType.number := by simpa using h.symm
          subst ht
          exact ⟨Value.number nn, fromStr_intToStr_number nn⟩
      | text =>
          simp only [ValueLimiter.isConvertible, htype] at h
          have ht : t = ValueType.text := by simpa using h.symm
          subst ht
          exact ⟨Value.text (intToStr nn), rfl⟩

theorem qualify_of_not_convertible (lim : ValueLimiter) (v : Value)
    (h : lim.isConvertible v = none) : lim.qualify v = false := by
  cases htype : lim.value_type with
  | number =>
      cases v with
      | number nn => simp [ValueLimiter.isConvertible, htype] at h
      | text s => simp [ValueLimiter.qualify, htype, Value.getType]
  | text =>
      cases v <;> simp [ValueLimiter.isConvertible, htype] at h

theorem changeCellType_of_fromStr (r : Row) (name : Str) (v : Value) (t : ValueType)
    (hv : r.getCellValue name = some v) (cv : Value)
    (hok : Value.fromStr v.toStr t = .ok cv) :
    ∃ r2, r.changeCellType name t = .ok r2 ∧ r2.getCellValue name = some cv := by
  have hkey : r.hasKey name := by simp [Row.hasKey, hv]
  cases v with
  | text s =>
      cases t with
      | number =>
          simp only [Value.fromStr, Value.toStr] at hok
          simp only [Row.changeCellType, hv]
          by_cases hs : s = []
          · rw [if_pos hs] at hok
            have hcv : cv = Value.number 0 := by simpa using hok.symm
            subst hcv
            rw [if_pos hs]
            exact ⟨_, rfl, getCellValue_update_self r name _ hkey⟩
          · rw [if_neg hs] at hok
            cases hp : parseIsize s with
            | none => rw [hp] at hok; simp at hok
            | some k =>
                rw [hp] at hok
                have hcv : cv = Value.number k := by simpa using hok.symm
                subst hcv
                rw [if_neg hs]
                exact ⟨_, rfl, getCellValue_update_self r name _ hkey⟩
      | text =>
          have hcv : cv = Value.text s := by
            simpa [Value.fromStr, Value.toStr] using hok.symm
          subst hcv
          simp only [Row.changeCellType, hv]
          exact ⟨r, rfl, hv⟩
  | number nn =>
      cases t with
      | number =>
          rw [show Value.toStr (Value.number nn) = intToStr nn from rfl,
            fromStr_intToStr_number] at hok
          have hcv : cv = Value.number nn := by simpa using hok.symm
          subst hcv
          simp only [Row.changeCellType, hv]
          exact ⟨r, rfl, hv⟩
      | text =>
          have hcv : cv = Value.text (intToStr nn) := by
            simpa [Value.fromStr, Value.toStr] using hok.symm
          subst hcv
          simp only [Row.changeCellType, hv]
          exact ⟨_, rfl, getCellValue_update_self r name _ hkey⟩

theorem setLimiterRowStep_lenient (name : Str) (lim : ValueLimiter) (r : Row) (v : Value)
    (hv : r.getCellValue name = some v) :
    ∃ r2, setLimiterRowStep name lim false r = (r2, none) ∧
      r2.getCellValue name = some (limiterResolve lim v) := by
  have hkey : r.hasKey name := by simp [Row.hasKey, hv]
  cases hconv : lim.isConvertible v with
  | none =>
      have hq : lim.qualify v = false := qualify_of_not_convertible lim v hconv
      refine ⟨r.updateCellValue name (lim.default.getD (Value.empty lim.value_type)),
        ?_, ?_⟩
      · simp [setLimiterRowStep, hv, hconv, hq]
      · simp only [limiterResolve, hconv]
        exact getCellValue_update_self r name _ hkey
  | some t =>
      have hfs := fromStr_convertedValue lim v t hconv
      by_cases hq : lim.qualify (convertedValue v t)
      · obtain ⟨r2, hchange, hlook⟩ :=
          changeCellType_of_fromStr r name v t hv (convertedValue v t) hfs
        refine ⟨r2, ?_, ?_⟩
        · simp [setLimiterRowStep, hv, hconv, hfs, hchange, hq]
        · rw [hlook]
          simp only [limiterResolve, hconv]
          rw [if_pos hq]
      · refine ⟨r.updateCellValue name (lim.default.getD (Value.empty lim.value_type)),
          ?_, ?_⟩
        · simp [setLimiterRowStep, hv, hconv, hfs, hq]
        · simp only [limiterResolve, hconv]
          rw [if_neg hq]
          exact getCellValue_update_self r name _ hkey

theorem setLimiterRows_lenient (name : Str) (lim : ValueLimiter) :
    ∀ rows : List Row, (∀ r ∈ rows, r.hasKey name) →
      ∃ rows2, setLimiterRows name lim false rows = (rows2, none) ∧
        rows2.length = rows.length ∧
        ∀ (j : Nat) (v : Value),
          (rows.get? j).bind (fun r => r.getCellValue name) = some v →
          (rows2.get? j).bind (fun r => r.getCellValue name) =
            some (limiterResolve lim v) := by
  intro rows
  induction rows with
  | nil =>
      intro _
      exact ⟨[], rfl, rfl, fun j v h => by simp at h⟩
  | cons r rest ih =>
      intro hall
      obtain ⟨v0, hv0⟩ := Option.isSome_iff_exists.mp (hall r (by simp))
      obtain ⟨r2, hstep, hlook⟩ := setLimiterRowStep_lenient name lim r v0 hv0
      obtain ⟨rows2, hloop, hlen, hptw⟩ := ih (fun q hq => hall q (by simp [hq]))
      refine ⟨r2 :: rows2, ?_, by simp [hlen], ?_⟩
      · unfold setLimiterRows
        rw [hstep, hloop]
      · intro j v hj
        cases j with
        | zero =>
            simp only [List.get?, Option.some_bind] at hj ⊢
            rw [hv0] at hj
            have hvv : v0 = v := Option.some.inj hj
            rw [hlook, hvv]
        | succ n =>
            simp only [List.get?] at hj ⊢
            exact hptw n v hj

/-- C10: with the strict flag false, set_limiter on a valid column of a
well-formed VirtualData never errors (in particular it never returns
InvalidCellData): every row is processed, each cell becoming its
conversion to the limiter type when that conversion qualifies and the
limiter default (or the empty value of the limiter type) otherwise, and
afterwards the column's type equals the limiter's type. -/
theorem set_limiter_lenient (d : VirtualData) (column : Nat) (limiter : ValueLimiter)
    (col : Column) (hget : d.columns.get? column = some col)
    (hrows : ∀ r ∈ d.rows, r.hasKey col.name) :
    ∃ d2, d.setLimiter column limiter false = some (d2, none) ∧
      d2.rows.length = d.rows.length ∧
      d2.columns.get? column = some (col.applyLimiter limiter) ∧
      ∀ (j : Nat) (v : Value),
        (d.rows.get? j).bind (fun r => r.getCellValue col.name) = some v →
        (d2.rows.get? j).bind (fun r => r.getCellValue col.name) =
          some (limiterResolve limiter v) := by
  obtain ⟨rows2, hloop, hlen, hptw⟩ := setLimiterRows_lenient col.name limiter d.rows hrows
  have hlt : column < d.columns.length := by
    rcases List.get?_eq_some.mp hget with ⟨h, _⟩
    exact h
  refine ⟨{ d with rows := rows2, columns := d.columns.set column (col.applyLimiter limiter) }, ?_, hlen, ?_, hptw⟩
  · have hget2 : d.columns[column]? = some col := by
      rw [← List.get?_eq_getElem?]
      exact hget
    simp [VirtualData.setLimiter, hget2, hloop]
  · show (d.columns.set column (col.applyLimiter limiter)).get? column = _
    rw [List.get?_eq_getElem?, List.getElem?_set_self (by simpa using hlt)]

/-- C10 witness: lenient set_limiter at the concrete container returns
no error, converts the convertible cell, defaults the failing cell and
retypes the column. -/
theorem set_limiter_lenient_witness :
    ∃ d2, lenientLimData.setLimiter 0 lenientLim false = some (d2, none) ∧
      d2.rows.length = lenientLimData.rows.length ∧
      d2.columns.get? 0 = some ((Column.emptyCol (s2l "n")).applyLimiter lenientLim) ∧
      ∀ (j : Nat) (v : Value),
        (lenientLimData.rows.get? j).bind
          (fun r => r.getCellValue (Column.emptyCol (s2l "n")).name) = some v →
        (d2.rows.get? j).bind
          (fun r => r.getCellValue (Column.emptyCol (s2l "n")).name) =
          some (limiterResolve lenientLim v) :=
  set_limiter_lenient lenientLimData 0 lenientLim (Column.emptyCol (s2l "n")) rfl
    (by decide)

theorem not_mem_joinSep (xs : List Str) (sep ch : Char) (hne : ch ≠ sep)
    (h : ∀ x ∈ xs, ch ∉ x) : ch ∉ joinSep xs sep := by
  induction xs with
  | nil => simp [joinSep]
  | cons x rest ih =>
      cases rest with
      | nil => exact h x (by simp)
      | cons y t =>
          intro hmem
          rcases List.mem_append.mp hmem with hx | hy
          · exact h x (by simp) hx
          · rcases List.mem_cons.mp hy with hc | hj
            · exact hne hc
            · exact ih (fun z hz => h z (List.mem_cons_of_mem _ hz)) hj

theorem joinSep_two_ne_nil (x y : Str) (rest : List Str) (sep : Char) :
    joinSep (x :: y :: rest) sep ≠ [] := by
  cases x <;> simp [joinSep]

theorem dropLast_unlines (ls : List Str) :
    ∀ x : Str, ((x ++ ['\n']) ++ (ls.map (fun l => l ++ ['\n'])).flatten).dropLast =
      joinSep (x :: ls) '\n' := by
  induction ls with
  | nil => intro x; simp [joinSep]
  | cons l rest ih =>
      intro x
      have hne : ((l :: rest).map (fun q => q ++ ['\n'])).flatten ≠ [] := by
        simp
      calc ((x ++ ['\n']) ++ ((l :: rest).map (fun q => q ++ ['\n'])).flatten).dropLast
          = (x ++ ['\n']) ++
            (((l :: rest).map (fun q => q ++ ['\n'])).flatten).dropLast :=
            List.dropLast_append_of_ne_nil _ hne
        _ = (x ++ ['\n']) ++ (((l ++ ['\n']) ++ (rest.map (fun q => q ++ ['\n'])).flatten)).dropLast := by
            simp
        _ = (x ++ ['\n']) ++ joinSep (l :: rest) '\n' := by rw [ih l]
        _ = joinSep (x :: l :: rest) '\n' := by simp [joinSep]

theorem displayData_eq (d : VirtualData) :
    d.displayData = joinSep (headerLine d.columns :: d.rows.map (rowLine d.columns)) '\n' := by
  show ((joinSep (d.columns.map (fun c => c.name)) ',' ++ ['\n']) ++
      (d.rows.map (fun row => rowLine d.columns row ++ ['\n'])).flatten).dropLast = _
  have hmm : d.rows.map (fun row => rowLine d.columns row ++ ['\n']) =
      (d.rows.map (rowLine d.columns)).map (fun l => l ++ ['\n']) := by
    rw [List.map_map]
    rfl
  rw [hmm, dropLast_unlines]
  rfl

theorem displayArray_eq_nil (a : VirtualArray) (h : a.rows = []) :
    a.displayArray = headerLine a.columns ++ ['\n'] := by
  show (joinSep (a.columns.map (fun c => c.name)) ',' ++ ['\n']) ++
      joinSep (a.rows.map arrayRowLine) '\n' = _
  rw [h]
  simp [joinSep]
  rfl

theorem displayArray_eq_cons (a : VirtualArray) (r : List Value) (rs : List (List Value))
    (h : a.rows = r :: rs) :
    a.displayArray = joinSep (headerLine a.columns :: a.rows.map arrayRowLine) '\n' := by
  show (joinSep (a.columns.map (fun c => c.name)) ',' ++ ['\n']) ++
      joinSep (a.rows.map arrayRowLine) '\n' = _
  rw [h]
  simp [joinSep, headerLine]

theorem splitStream_line_cons (line : Str) (rest : Str) (h : '\n' ∉ line) :
    splitStream '\n' (line ++ '\n' :: rest) = (line ++ ['\n']) :: splitStream '\n' rest := by
  induction line with
  | nil => simp [splitStream]
  | cons c cs ih =>
      have hc : c ≠ '\n' := fun hc => h (hc ▸ List.mem_cons_self c cs)
      have hcs : '\n' ∉ cs := fun hm => h (List.mem_cons_of_mem _ hm)
      show splitStream '\n' (c :: (cs ++ '\n' :: rest)) = _
      simp only [splitStream, if_neg hc, ih hcs]
      rfl

theorem splitStream_line_last (line : Str) (h : '\n' ∉ line) (hne : line ≠ []) :
    splitStream '\n' line = [line] := by
  induction line with
  | nil => exact absurd rfl hne
  | cons c cs ih =>
      have hc : c ≠ '\n' := fun hc => h (hc ▸ List.mem_cons_self c cs)
      have hcs : '\n' ∉ cs := fun hm => h (List.mem_cons_of_mem _ hm)
      show splitStream '\n' (c :: cs) = [c :: cs]
      cases cs with
      | nil => simp [splitStream, if_neg hc]
      | cons y t =>
          have hstep : splitStream '\n' (c :: y :: t) =
              match splitStream '\n' (y :: t) with
              | [] => [[c]]
              | chunk :: chunks => (c :: chunk) :: chunks := by
            conv_lhs => rw [splitStream]
            rw [if_neg hc]
          rw [hstep, ih hcs (by simp)]

theorem splitStream_joinSep (ls : List Str) :
    ∀ x : Str, ('\n' ∉ x) → (∀ l ∈ ls, '\n' ∉ l) →
      ((x :: ls).getLast (by simp) ≠ []) →
      splitStream '\n' (joinSep (x :: ls) '\n') = chunksOf (x :: ls) := by
  induction ls with
  | nil =>
      intro x hx _ hlast
      show splitStream '\n' x = [x]
      exact splitStream_line_last x hx (by simpa using hlast)
  | cons l rest ih =>
      intro x hx hls hlast
      show splitStream '\n' (x ++ '\n' :: joinSep (l :: rest) '\n') = _
      rw [splitStream_line_cons x _ hx]
      rw [ih l (hls l (by simp)) (fun q hq => hls q (by simp [hq])) (by simpa using hlast)]
      rfl

theorem crlfNormalize_of_no_cr (s : Str) (h : '\r' ∉ s) : crlfNormalize s = s := by
  induction s with
  | nil => rfl
  | cons c cs ih =>
      have hc : ¬ (c = '\r') := fun hc => h (hc ▸ List.mem_cons_self c cs)
      have hcs : '\r' ∉ cs := fun hm => h (List.mem_cons_of_mem _ hm)
      cases cs with
      | nil => rfl
      | cons y t =>
          show crlfNormalize (c :: y :: t) = _
          unfold crlfNormalize
          rw [if_neg (fun hp => hc hp.1), ih hcs]

theorem lastCharD_cons (c : Char) (f : Str) (p : Char) :
    lastCharD (c :: f) p = lastCharD f c := by
  cases f with
  | nil => simp [lastCharD]
  | cons y t =>
      have h : (y :: t).getLast? = some ((y :: t).getLast (by simp)) :=
        List.getLast?_eq_getLast _ (by simp)
      simp [lastCharD, List.getLast?_cons_cons, h]

theorem lastField_cons (f f2 : Str) (fs : List Str) :
    lastField f (f2 :: fs) = lastField f2 fs := by
  simp [lastField, List.getLast_cons]

theorem feedLoop_safe_field (dc : Char) (consume : Bool) (f : Str)
    (hf : ∀ c ∈ f, c ≠ dc ∧ c ≠ '"') :
    ∀ (rest : Str) (st : FeedState), st.on_quote = false →
      feedLoop dc consume (f ++ rest) st =
        feedLoop dc consume rest
          { container := st.container, value := st.value ++ f,
            on_quote := false, previous := lastCharD f st.previous } := by
  induction f with
  | nil =>
      intro rest st hq
      rcases st with ⟨C, v, q, p⟩
      simp only at hq
      subst hq
      simp [lastCharD]
  | cons c f ih =>
      intro rest st hq
      have hc := hf c (by simp)
      have hstep : feedLoop dc consume ((c :: f) ++ rest) st =
          feedLoop dc consume (f ++ rest)
            { container := st.container, value := st.value ++ [c], on_quote := false,
              previous := c } := by
        show feedLoop dc consume (c :: (f ++ rest)) st = _
        conv_lhs => rw [feedLoop]
        rw [if_neg hc.1, if_neg hc.2, hq]
      rw [hstep, ih (fun x hx => hf x (by simp [hx])) rest
        { container := st.container, value := st.value ++ [c], on_quote := false,
          previous := c } rfl]
      rw [lastCharD_cons]
      simp

theorem feedLoop_flush (dc : Char) (consume : Bool) (rest : Str) (st : FeedState)
    (hq : st.on_quote = false) :
    feedLoop dc consume (dc :: rest) st =
      feedLoop dc consume rest
        { container := st.container ++ [st.value], value := [], on_quote := false,
          previous := dc } := by
  conv_lhs => rw [feedLoop]
  rw [if_pos rfl, hq]
  rw [if_neg (by simp)]

theorem feedLoop_fields (dc : Char) (consume : Bool) :
    ∀ (fs : List Str) (f : Str), (∀ c ∈ f, c ≠ dc ∧ c ≠ '"') →
      (∀ g ∈ fs, ∀ c ∈ g, c ≠ dc ∧ c ≠ '"') →
      ∀ (rest : Str) (C : List Str) (p : Char),
        feedLoop dc consume (joinSep (f :: fs) dc ++ rest) ⟨C, [], false, p⟩ =
          feedLoop dc consume rest
            ⟨C ++ initFields f fs, lastField f fs, false, prevEnd dc f fs p⟩ := by
  intro fs
  induction fs with
  | nil =>
      intro f hf _ rest C p
      show feedLoop dc consume (f ++ rest) ⟨C, [], false, p⟩ = _
      rw [feedLoop_safe_field dc consume f hf rest _ rfl]
      simp [initFields, lastField, prevEnd, lastCharD]
  | cons f2 fs ih =>
      intro f hf hfs rest C p
      have hj : joinSep (f :: f2 :: fs) dc ++ rest =
          f ++ (dc :: (joinSep (f2 :: fs) dc ++ rest)) := by
        simp [joinSep]
      rw [hj, feedLoop_safe_field dc consume f hf _ _ rfl,
        feedLoop_flush dc consume _ _ rfl]
      have hihres := ih f2 (hfs f2 (by simp)) (fun g hg => hfs g (by simp [hg]))
        rest (C ++ [[] ++ f]) dc
      have e1 : C ++ [[] ++ f] ++ initFields f2 fs = C ++ initFields f (f2 :: fs) := by
        simp [initFields]
      have e2 : lastField f2 fs = lastField f (f2 :: fs) := (lastField_cons f f2 fs).symm
      have e3 : prevEnd dc f2 fs dc = prevEnd dc f (f2 :: fs) p := by
        simp only [prevEnd, lastField_cons]
        cases fs <;> simp
      rw [hihres, e1, e2, e3]

theorem safeFieldB_spec (g : Str) (h : safeFieldB g = true) :
    ∀ c ∈ g, c ≠ ',' ∧ c ≠ '"' ∧ c ≠ '\n' ∧ c ≠ '\r' := by
  intro c hc
  have h2 := List.all_eq_true.mp h c hc
  have h3 : ((¬c = ',' ∧ ¬c = '"') ∧ ¬c = '\n') ∧ ¬c = '\r' := by
    simpa [Bool.and_eq_true, decide_eq_true_eq] using h2
  exact ⟨h3.1.1.1, h3.1.1.2, h3.1.2, h3.2⟩

theorem stripSuffixChar_concat (v : Str) (c : Char) :
    stripSuffixChar (v ++ [c]) c = some v := by
  simp [stripSuffixChar]

theorem stripSuffixChar_of_not_mem (v : Str) (c : Char) (h : c ∉ v) :
    stripSuffixChar v c = none := by
  unfold stripSuffixChar
  rw [if_neg]
  intro hlast
  obtain ⟨hne, hceq⟩ := List.mem_getLast?_eq_getLast hlast
  exact h (by rw [hceq]; exact List.getLast_mem hne)

theorem no_cr_in_joined (f : Str) (fs : List Str) (ch : Char) (hch : ch ≠ ',')
    (hsafe : ∀ g ∈ f :: fs, safeFieldB g = true)
    (hin : ch = '\r' ∨ ch = '\n') : ch ∉ joinSep (f :: fs) ',' := by
  refine not_mem_joinSep (f :: fs) ',' ch hch (fun g hg hmem => ?_)
  rcases hin with h | h
  · exact (safeFieldB_spec g (hsafe g hg) ch hmem).2.2.2 h
  · exact (safeFieldB_spec g (hsafe g hg) ch hmem).2.2.1 h

theorem feedChunk_line (f : Str) (fs : List Str)
    (hsafe : ∀ g ∈ f :: fs, safeFieldB g = true) (p : Parser)
    (hc : p.container = []) (hr : p.remnant = []) (hq : p.on_quote = false)
    (hld : p.line_delimiter = none) :
    p.feedChunk (joinSep (f :: fs) ',' ++ ['\n']) none false false false =
      ({ p with container := [], remnant := [], on_quote := false }, some (f :: fs)) := by
  have hsafe2 : ∀ g ∈ f :: fs, ∀ c ∈ g, c ≠ ',' ∧ c ≠ '"' := fun g hg c hcg =>
    ⟨(safeFieldB_spec g (hsafe g hg) c hcg).1, (safeFieldB_spec g (hsafe g hg) c hcg).2.1⟩
  have hnocr : '\r' ∉ joinSep (f :: fs) ',' ++ ['\n'] := by
    intro hm
    rcases List.mem_append.mp hm with hm | hm
    · exact no_cr_in_joined f fs '\r' (by decide) hsafe (Or.inl rfl) hm
    · simp at hm
  have hcrlf : crlfNormalize (joinSep (f :: fs) ',' ++ ['\n']) =
      joinSep (f :: fs) ',' ++ ['\n'] := crlfNormalize_of_no_cr _ hnocr
  have hnonl : '\n' ∉ lastField f fs := by
    intro hm
    have hlm : lastField f fs ∈ f :: fs := List.getLast_mem _
    exact (safeFieldB_spec _ (hsafe _ hlm) '\n' hm).2.2.1 rfl
  simp only [Parser.feedChunk, hcrlf, hc, hr, hq, hld]
  rw [if_neg (by simp)]
  rw [show (none : Option Char).getD ',' = ',' from rfl]
  rw [feedLoop_fields ',' false fs f (hsafe2 f (by simp))
    (fun g hg => hsafe2 g (by simp [hg])) ['\n'] [] '0']
  have hnl : feedLoop ',' false ['\n']
      ⟨[] ++ initFields f fs, lastField f fs, false, prevEnd ',' f fs '0'⟩ =
      ⟨[] ++ initFields f fs, lastField f fs ++ ['\n'], false, '\n'⟩ := by
    conv_lhs => rw [feedLoop]
    rw [if_neg (by decide), if_neg (by decide)]
    conv_lhs => rw [feedLoop]
  rw [hnl]
  rw [if_neg (by simp)]
  rw [if_pos (Or.inl (by simp))]
  rw [show (none : Option Char).getD '\n' = '\n' from rfl,
    stripSuffixChar_concat (lastField f fs) '\n']
  have hfin : ([] : List Str) ++ initFields f fs ++ [lastField f fs] = f :: fs := by
    simpa [initFields, lastField] using List.dropLast_concat_getLast
      (l := f :: fs) (by simp)
  exact congrArg (fun l => (({ container := [], remnant := [], on_quote := false, line_delimiter := none } : Parser), some l)) hfin

theorem feedChunk_line_last (f : Str) (fs : List Str)
    (hsafe : ∀ g ∈ f :: fs, safeFieldB g = true)
    (hlast : lastField f fs ≠ [] ∨ fs ≠ []) (p : Parser)
    (hc : p.container = []) (hr : p.remnant = []) (hq : p.on_quote = false)
    (hld : p.line_delimiter = none) :
    p.feedChunk (joinSep (f :: fs) ',') none false false false =
      ({ p with container := [], remnant := [], on_quote := false }, some (f :: fs)) := by
  have hsafe2 : ∀ g ∈ f :: fs, ∀ c ∈ g, c ≠ ',' ∧ c ≠ '"' := fun g hg c hcg =>
    ⟨(safeFieldB_spec g (hsafe g hg) c hcg).1, (safeFieldB_spec g (hsafe g hg) c hcg).2.1⟩
  have hnocr : '\r' ∉ joinSep (f :: fs) ',' :=
    no_cr_in_joined f fs '\r' (by decide) hsafe (Or.inl rfl)
  have hcrlf : crlfNormalize (joinSep (f :: fs) ',') = joinSep (f :: fs) ',' :=
    crlfNormalize_of_no_cr _ hnocr
  have hnonl : '\n' ∉ lastField f fs := by
    intro hm
    have hlm : lastField f fs ∈ f :: fs := List.getLast_mem _
    exact (safeFieldB_spec _ (hsafe _ hlm) '\n' hm).2.2.1 rfl
  have hstrip : stripSuffixChar (lastField f fs) '\n' = none :=
    stripSuffixChar_of_not_mem _ _ hnonl
  have hfin : ([] : List Str) ++ initFields f fs ++ [lastField f fs] = f :: fs := by
    simpa [initFields, lastField] using List.dropLast_concat_getLast
      (l := f :: fs) (by simp)
  simp only [Parser.feedChunk, hcrlf, hc, hr, hq, hld]
  rw [if_neg (by simp)]
  rw [show (none : Option Char).getD ',' = ',' from rfl]
  have hjoin : joinSep (f :: fs) ',' = joinSep (f :: fs) ',' ++ [] := by simp
  rw [hjoin, feedLoop_fields ',' false fs f (hsafe2 f (by simp))
    (fun g hg => hsafe2 g (by simp [hg])) [] [] '0']
  rw [show feedLoop ',' false []
      ⟨[] ++ initFields f fs, lastField f fs, false, prevEnd ',' f fs '0'⟩ =
      ⟨[] ++ initFields f fs, lastField f fs, false, prevEnd ',' f fs '0'⟩ from rfl]
  rw [if_neg (by simp)]
  have hdone : (fun l => (({ container := [], remnant := [], on_quote := false, line_delimiter := none } : Parser), some l)) ([] ++ initFields f fs ++ [lastField f fs]) = (({ container := [], remnant := [], on_quote := false, line_delimiter := none } : Parser), some (f :: fs)) := by rw [hfin]
  rcases hlast with hne | hfs
  · rw [if_pos (Or.inl (by simpa using hne))]
    rw [show (none : Option Char).getD '\n' = '\n' from rfl, hstrip]
    exact hdone
  · cases fs with
    | nil => exact absurd rfl hfs
    | cons f2 fs2 =>
        by_cases hne : lastField f (f2 :: fs2) = []
        · have hprev : prevEnd ',' f (f2 :: fs2) '0' = ',' := by
            simp [prevEnd, hne, lastCharD]
          rw [if_pos (Or.inr hprev)]
          rw [show (none : Option Char).getD '\n' = '\n' from rfl, hstrip]
          exact hdone
        · rw [if_pos (Or.inl (by simpa using hne))]
          rw [show (none : Option Char).getD '\n' = '\n' from rfl, hstrip]
          exact hdone

theorem getCellValue_insert_self (r : Row) (k : Str) (v : Value) :
    (r.insertCell k v).getCellValue k = some v := by
  obtain ⟨l⟩ := r
  show Row.getCellValue ⟨assocInsert l k v⟩ k = some v
  induction l with
  | nil => simp [Row.getCellValue, assocInsert]
  | cons p rest ih =>
      by_cases h : p.1 = k
      · simp [Row.getCellValue, assocInsert, h]
      · simpa [Row.getCellValue, assocInsert, h] using ih

theorem getCellValue_insert_ne (r : Row) (k k2 : Str) (v : Value) (h : k ≠ k2) :
    (r.insertCell k v).getCellValue k2 = r.getCellValue k2 := by
  obtain ⟨l⟩ := r
  show Row.getCellValue ⟨assocInsert l k v⟩ k2 = Row.getCellValue ⟨l⟩ k2
  induction l with
  | nil => simp [Row.getCellValue, assocInsert, h]
  | cons p rest ih =>
      by_cases hp : p.1 = k
      · simp [Row.getCellValue, assocInsert, hp, h]
      · by_cases hp2 : p.1 = k2
        · simp [Row.getCellValue, assocInsert, hp, hp2, Ne.symm h]
        · simpa [Row.getCellValue, assocInsert, hp, hp2] using ih

theorem foldl_insert_lookup_notmem (pairs : List (Column × Value)) (r0 : Row) (key : Str)
    (h : ∀ cv ∈ pairs, cv.1.name ≠ key) :
    (pairs.foldl (fun r cv => r.insertCell cv.1.name cv.2) r0).getCellValue key =
      r0.getCellValue key := by
  induction pairs generalizing r0 with
  | nil => rfl
  | cons cv rest ih =>
      show (rest.foldl _ (r0.insertCell cv.1.name cv.2)).getCellValue key = _
      rw [ih _ (fun x hx => h x (List.mem_cons_of_mem _ hx)),
        getCellValue_insert_ne _ _ _ _ (h cv (by simp))]

theorem builtRow_toVector (cols : List Column) (vals : List Value) (r0 : Row)
    (hlen : cols.length = vals.length) (hnodup : (cols.map Column.name).Nodup) :
    ((cols.zip vals).foldl (fun r cv => r.insertCell cv.1.name cv.2) r0).toVector cols =
      .ok vals := by
  induction cols generalizing vals r0 with
  | nil =>
      cases vals with
      | nil => rfl
      | cons v vs => simp at hlen
  | cons col rest ih =>
      cases vals with
      | nil => simp at hlen
      | cons v vs =>
          have hnd : col.name ∉ rest.map Column.name ∧ (rest.map Column.name).Nodup := by
            simpa [List.nodup_cons] using hnodup
          have hkeys : ∀ cv ∈ rest.zip vs, cv.1.name ≠ col.name := by
            intro cv hcv heq
            exact hnd.1 (heq ▸ List.mem_map_of_mem _ (List.of_mem_zip hcv).1)
          show ((rest.zip vs).foldl _ (r0.insertCell col.name v)).toVector (col :: rest) = _
          have hlook : ((rest.zip vs).foldl (fun r cv => r.insertCell cv.1.name cv.2)
              (r0.insertCell col.name v)).getCellValue col.name = some v := by
            rw [foldl_insert_lookup_notmem _ _ _ hkeys, getCellValue_insert_self]
          have hrest := ih vs (r0.insertCell col.name v) (by simpa using hlen) hnd.2
          simp only [Row.toVector, hlook, hrest]

theorem builtRow_rowVec (cols : List Column) (vals : List Value) (r0 : Row)
    (hlen : cols.length = vals.length) (hnodup : (cols.map Column.name).Nodup) :
    rowVec cols ((cols.zip vals).foldl (fun r cv => r.insertCell cv.1.name cv.2) r0) =
      vals.map some := by
  induction cols generalizing vals r0 with
  | nil =>
      cases vals with
      | nil => rfl
      | cons v vs => simp at hlen
  | cons col rest ih =>
      cases vals with
      | nil => simp at hlen
      | cons v vs =>
          have hnd : col.name ∉ rest.map Column.name ∧ (rest.map Column.name).Nodup := by
            simpa [List.nodup_cons] using hnodup
          have hkeys : ∀ cv ∈ rest.zip vs, cv.1.name ≠ col.name := by
            intro cv hcv heq
            exact hnd.1 (heq ▸ List.mem_map_of_mem _ (List.of_mem_zip hcv).1)
          show rowVec (col :: rest) ((rest.zip vs).foldl _ (r0.insertCell col.name v)) = _
          have hlook : ((rest.zip vs).foldl (fun r cv => r.insertCell cv.1.name cv.2)
              (r0.insertCell col.name v)).getCellValue col.name = some v := by
            rw [foldl_insert_lookup_notmem _ _ _ hkeys, getCellValue_insert_self]
          have hrest := ih vs (r0.insertCell col.name v) (by simpa using hlen) hnd.2
          simp only [rowVec, List.map_cons] at hrest ⊢
          rw [hlook]
          exact congrArg _ hrest

theorem qualify_default_text (s : Str) :
    ValueLimiter.defaultLimiter.qualify (Value.text s) = true := rfl

theorem addDataRow_ok (d : VirtualData) (fields : List Str)
    (hlen : fields.length = d.columns.length)
    (hlim : ∀ c ∈ d.columns, c.limiter = ValueLimiter.defaultLimiter)
    (hnodup : (d.columns.map Column.name).Nodup) :
    addDataRow d fields =
      ({ d with metas := updateMetasZip d.metas (fields.map Value.text),
                rows := d.rows ++ [builtRowOf d.columns fields] }, none) := by
  have hchk : d.checkRowLength (fields.map Value.text) = none := by
    simp [VirtualData.checkRowLength, VirtualData.getColumnCount, hlen]
  have hq : ((d.columns.zip (fields.map Value.text)).any
      (fun cv => ¬ cv.1.limiter.qualify cv.2)) = false := by
    rw [List.any_eq_false]
    rintro ⟨c, v⟩ hcv
    obtain ⟨hc, hv⟩ := List.of_mem_zip hcv
    obtain ⟨s, _, hs⟩ := List.mem_map.mp hv
    simp [hlim c hc, ← hs, qualify_default_text]
  have htv : ((d.columns.zip (fields.map Value.text)).foldl
      (fun r cv => r.insertCell cv.1.name cv.2) Row.newRow).toVector d.columns =
      .ok (fields.map Value.text) :=
    builtRow_toVector d.columns (fields.map Value.text) Row.newRow (by simpa using hlen.symm)
      hnodup
  show d.insertRow d.getRowCount (some (fields.map Value.text)) = _
  rw [VirtualData.insertRow]
  rw [if_neg (lt_irrefl d.getRowCount)]
  simp only [hchk, hq, Bool.false_eq_true, if_false, htv, builtRowOf]
  rw [show d.getRowCount = d.rows.length from rfl, List.insertIdx_length_self]

theorem addArrayRow_ok (a : VirtualArray) (fields : List Str)
    (hlen : fields.length = a.columns.length) :
    addArrayRow a fields =
      ({ a with metas := updateMetasZip a.metas (fields.map Value.text),
                rows := a.rows ++ [fields.map Value.text] }, none) := by
  have hchk : a.checkRowLength (fields.map Value.text) = none := by
    simp [VirtualArray.checkRowLength, VirtualArray.getColumnCount, hlen]
  show a.insertRow a.getRowCount (some (fields.map Value.text)) = _
  rw [VirtualArray.insertRow]
  rw [if_neg (lt_irrefl a.getRowCount)]
  simp only [hchk]
  rw [show a.getRowCount = a.rows.length from rfl, List.insertIdx_length_self]

theorem tryGetColumnIndex_none (d : VirtualData) (n : Str)
    (hu : parseUsizeRust n = none) (hmem : n ∉ d.columns.map Column.name) :
    d.tryGetColumnIndex n = none := by
  rw [VirtualData.tryGetColumnIndex, hu, List.findIdx?_eq_none_iff]
  intro c hc
  simp only [decide_eq_false_iff_not]
  exact fun heq => hmem (heq ▸ List.mem_map_of_mem _ hc)

theorem insertColumn_ok (d : VirtualData) (n : Str)
    (hrows : d.rows = []) (hml : d.metas.length = d.columns.length)
    (hu : parseUsizeRust n = none) (hmem : n ∉ d.columns.map Column.name) :
    d.insertColumn d.columns.length n =
      ({ metas := d.metas ++ [headerMeta n],
         columns := d.columns ++ [Column.new n .text none], rows := [] }, none) := by
  rw [VirtualData.insertColumn]
  simp only [VirtualData.getColumnCount]
  rw [if_neg (lt_irrefl d.columns.length)]
  rw [tryGetColumnIndex_none d n hu hmem]
  simp only [Option.isSome_none, Bool.false_eq_true, if_false]
  rw [show (d.columns.length : Nat) = d.metas.length from hml.symm,
    List.insertIdx_length_self]
  rw [show (d.metas.length : Nat) = d.columns.length from hml,
    List.insertIdx_length_self]
  rw [hrows]
  rfl

theorem addMultipleColumnsGo_ok (names : List Str) :
    ∀ (d : VirtualData), d.rows = [] → d.metas.length = d.columns.length →
    (∀ n ∈ names, parseUsizeRust n = none) →
    (∀ n ∈ names, n ∉ d.columns.map Column.name) → names.Nodup →
    addMultipleColumnsGo d d.columns.length names =
      ({ metas := d.metas ++ names.map headerMeta,
         columns := d.columns ++ headerCols names, rows := [] }, none) := by
  induction names with
  | nil =>
      intro d hrows hml _ _ _
      show (d, none) = _
      obtain ⟨ms, cs, rs⟩ := d
      simp only at hrows
      simp [headerCols, hrows]
  | cons n rest ih =>
      intro d hrows hml hu hmem hnd
      show (match d.insertColumn d.columns.length n with
        | (d2, some e) => (d2, some e)
        | (d2, none) => addMultipleColumnsGo d2 (d.columns.length + 1) rest) = _
      rw [insertColumn_ok d n hrows hml (hu n (by simp)) (hmem n (by simp))]
      have hfresh : ∀ m ∈ rest,
          m ∉ (d.columns ++ [Column.new n .text none]).map Column.name := by
        intro m hm hmm
        rw [List.map_append] at hmm
        rcases List.mem_append.mp hmm with hmm | hmm
        · exact hmem m (by simp [hm]) hmm
        · have : m = n := by simpa [Column.new] using hmm
          exact (List.nodup_cons.mp hnd).1 (this ▸ hm)
      have hrec := ih { metas := d.metas ++ [headerMeta n], columns := d.columns ++ [Column.new n .text none], rows := [] } rfl (by simp [hml]) (fun m hm => hu m (by simp [hm])) hfresh (List.nodup_cons.mp hnd).2
      simp only [List.length_append, List.length_cons, List.length_nil] at hrec
      show addMultipleColumnsGo _ (d.columns.length + 1) rest = _
      rw [hrec]
      simp [headerCols, List.append_assoc]

theorem addMultipleColumns_ok (names : List Str)
    (hu : ∀ n ∈ names, parseUsizeRust n = none) (hnd : names.Nodup) :
    addMultipleColumns VirtualData.newData names =
      ({ metas := names.map headerMeta, columns := headerCols names, rows := [] }, none) := by
  have h := addMultipleColumnsGo_ok names VirtualData.newData rfl rfl hu
    (by simp [VirtualData.newData]) hnd
  simpa [addMultipleColumns, VirtualData.newData] using h

theorem headerCols_names (names : List Str) :
    (headerCols names).map Column.name = names := by
  simp only [headerCols, List.map_map]
  exact List.map_id names

theorem headerCols_limiter (names : List Str) :
    ∀ c ∈ headerCols names, c.limiter = ValueLimiter.defaultLimiter := by
  intro c hc
  obtain ⟨n, _, hn⟩ := List.mem_map.mp hc
  rw [← hn]
  rfl

theorem cellTextSafe_spec (r : Row) (c : Column) (h : cellTextSafe r c = true) :
    ∃ s, r.getCellValue c.name = some (Value.text s) ∧ safeFieldB s = true := by
  unfold cellTextSafe at h
  cases hv : r.getCellValue c.name with
  | none => rw [hv] at h; exact Bool.noConfusion h
  | some v =>
      cases v with
      | number k => rw [hv] at h; exact Bool.noConfusion h
      | text s => rw [hv] at h; exact ⟨s, rfl, h⟩

theorem cellFields_safe (cols0 : List Column) (r : Row)
    (h : ∀ c ∈ cols0, cellTextSafe r c = true) :
    ∀ g ∈ cellFields cols0 r, safeFieldB g = true := by
  intro g hg
  obtain ⟨c, hc, hgc⟩ := List.mem_map.mp hg
  obtain ⟨s, hv, hs⟩ := cellTextSafe_spec r c (h c hc)
  rw [← hgc, hv]
  exact hs

theorem rowVec_eq_cellFields (cols0 : List Column) (r : Row)
    (h : ∀ c ∈ cols0, cellTextSafe r c = true) :
    rowVec cols0 r = (cellFields cols0 r).map (fun s => some (Value.text s)) := by
  unfold rowVec cellFields
  rw [List.map_map]
  refine List.map_congr_left ?_
  intro c hc
  obtain ⟨s, hv, _⟩ := cellTextSafe_spec r c (h c hc)
  simp [hv, Value.toStr]

theorem readerLoopVD_rows (cols0 : List Column) (hc0 : cols0 ≠ []) (rows : List Row) :
    ∀ (dacc : VirtualData) (p : Parser) (opt : ReaderOption),
      (∀ r ∈ rows, ∀ c ∈ cols0, cellTextSafe r c = true) →
      (∀ r ∈ rows, cols0.length = 1 → rustTrim ((cellFields cols0 r).headD []) ≠ []) →
      opt.delimiter = none → opt.consume_dquote = false → opt.allow_invalid_string = false →
      opt.trim = false →
      p.container = [] → p.remnant = [] → p.on_quote = false → p.line_delimiter = none →
      dacc.columns.length = cols0.length →
      (dacc.columns.map Column.name).Nodup →
      (∀ c ∈ dacc.columns, c.limiter = ValueLimiter.defaultLimiter) →
      ∃ ms, readerLoopVD opt p dacc (chunksOf (rows.map (rowLine cols0))) =
        some (.ok { metas := ms, columns := dacc.columns, rows := dacc.rows ++ rows.map (fun r => builtRowOf dacc.columns (cellFields cols0 r)) }) := by
  induction rows with
  | nil =>
      intro dacc p opt _ _ _ _ _ _ _ _ _ _ _ _ _
      refine ⟨dacc.metas, ?_⟩
      show some (Except.ok dacc) = _
      rw [List.map_nil, List.append_nil]
  | cons r rest ih =>
      intro dacc p opt hsafe hone ho1 ho2 ho3 ho4 hpc hpr hpq hpl hlen hnd hlim
      have hfsafe : ∀ g ∈ cellFields cols0 r, safeFieldB g = true :=
        cellFields_safe cols0 r (hsafe r (by simp))
      cases hfe : cellFields cols0 r with
      | nil =>
          exact absurd (by simpa [cellFields] using congrArg List.length hfe)
            (fun h => hc0 (List.length_eq_zero.mp h))
      | cons f fs =>
      have hlenf : (f :: fs).length = cols0.length := by
        rw [← hfe]; simp [cellFields]
      have hfsafe2 : ∀ g ∈ f :: fs, safeFieldB g = true := hfe ▸ hfsafe
      have hblank : ¬((f :: fs).length = 1 ∧ rustTrim ((f :: fs).headD []) = []) := by
        rintro ⟨h1, h2⟩
        have hc1 : cols0.length = 1 := hlenf.symm.trans h1
        have hh := hone r (by simp) hc1
        rw [hfe] at hh
        exact hh h2
      have hcc : ¬ (dacc.getColumnCount = 0) := by
        show ¬ (dacc.columns.length = 0)
        rw [hlen]
        exact fun h => hc0 (List.length_eq_zero.mp h)
      have hrl : ¬((f :: fs).length ≠ dacc.getColumnCount) := by
        show ¬ _
        rw [not_not]
        show (f :: fs).length = dacc.columns.length
        rw [hlenf, hlen]
      have hrow : rowLine cols0 r = joinSep (f :: fs) ',' := by
        rw [show rowLine cols0 r = joinSep (cellFields cols0 r) ',' from rfl, hfe]
      have hlenf2 : (f :: fs).length = dacc.columns.length := hlenf.trans hlen.symm
      have hadd := addDataRow_ok dacc (f :: fs) hlenf2 hlim hnd
      cases rest with
      | nil =>
          refine ⟨(updateMetasZip dacc.metas ((f :: fs).map Value.text)), ?_⟩
          have hlast : lastField f fs ≠ [] ∨ fs ≠ [] := by
            cases fs with
            | cons g gs => exact Or.inr (by simp)
            | nil =>
                left
                have hc1 : cols0.length = 1 := hlenf.symm
                have hh := hone r (by simp) hc1
                rw [hfe] at hh
                intro hf
                have hf2 : f = [] := hf
                exact hh (by rw [show ([f] : List Str).headD [] = f from rfl, hf2]; rfl)
          have hstep := feedChunk_line_last f fs hfsafe2 hlast p hpc hpr hpq hpl
          show readerLoopVD opt p dacc [rowLine cols0 r] = _
          conv_lhs => rw [readerLoopVD]
          rw [ho1, ho2, ho3, hrow]
          simp only [hstep]
          rw [if_neg hblank]
          rw [if_neg hcc]
          rw [if_neg hrl]
          rw [ho4]
          simp only [Bool.false_eq_true, if_false]
          simp only [hadd]
          show some (Except.ok _) = _
          simp [hfe]
      | cons r2 rs =>
          have hstep := feedChunk_line f fs hfsafe2 p hpc hpr hpq hpl
          have hch : chunksOf ((r :: r2 :: rs).map (rowLine cols0)) =
              (rowLine cols0 r ++ ['\n']) :: chunksOf ((r2 :: rs).map (rowLine cols0)) := rfl
          obtain ⟨ms, hms⟩ := ih
            { dacc with metas := updateMetasZip dacc.metas ((f :: fs).map Value.text), rows := dacc.rows ++ [builtRowOf dacc.columns (f :: fs)] }
            { p with container := [], remnant := [], on_quote := false } opt
            (fun r3 hr3 => hsafe r3 (List.mem_cons_of_mem _ hr3))
            (fun r3 hr3 => hone r3 (List.mem_cons_of_mem _ hr3))
            ho1 ho2 ho3 ho4 rfl rfl rfl hpl hlen hnd hlim
          refine ⟨ms, ?_⟩
          rw [hch]
          conv_lhs => rw [readerLoopVD]
          rw [ho1, ho2, ho3, hrow]
          simp only [hstep]
          rw [if_neg hblank]
          rw [if_neg hcc]
          rw [if_neg hrl]
          rw [ho4]
          simp only [Bool.false_eq_true, if_false]
          simp only [hadd]
          rw [hms]
          simp [hfe, List.append_assoc]

theorem arrayRowSafeB_spec (ncols : Nat) (row : List Value)
    (h : arrayRowSafeB ncols row = true) :
    row.length = ncols ∧ ∀ v ∈ row, ∃ s, v = Value.text s ∧ safeFieldB s = true := by
  unfold arrayRowSafeB at h
  rw [Bool.and_eq_true] at h
  refine ⟨by simpa using h.1, ?_⟩
  intro v hv
  have h2 := List.all_eq_true.mp h.2 v hv
  cases v with
  | number k => exact Bool.noConfusion h2
  | text s => exact ⟨s, rfl, h2⟩

theorem map_text_toStr (row : List Value)
    (h : ∀ v ∈ row, ∃ s, v = Value.text s) :
    (row.map Value.toStr).map Value.text = row := by
  rw [List.map_map]
  have hid : ∀ v ∈ row, Value.text (Value.toStr v) = v := by
    intro v hv
    obtain ⟨s, hs⟩ := h v hv
    rw [hs]
    rfl
  calc row.map (Value.text ∘ Value.toStr) = row.map id := List.map_congr_left hid
    _ = row := List.map_id row

theorem arrayFields_safe (row : List Value)
    (h : ∀ v ∈ row, ∃ s, v = Value.text s ∧ safeFieldB s = true) :
    ∀ g ∈ row.map Value.toStr, safeFieldB g = true := by
  intro g hg
  obtain ⟨v, hv, hgv⟩ := List.mem_map.mp hg
  obtain ⟨s, hs, hsafe⟩ := h v hv
  rw [← hgv, hs]
  exact hsafe

theorem readerLoopVA_rows (ncols : Nat) (hn0 : ncols ≠ 0) (rows : List (List Value)) :
    ∀ (aacc : VirtualArray) (p : Parser) (opt : ReaderOption),
      (∀ row ∈ rows, arrayRowSafeB ncols row = true) →
      (∀ row ∈ rows, ncols = 1 → rustTrim ((row.map Value.toStr).headD []) ≠ []) →
      opt.delimiter = none → opt.consume_dquote = false → opt.allow_invalid_string = false →
      opt.trim = false →
      p.container = [] → p.remnant = [] → p.on_quote = false → p.line_delimiter = none →
      aacc.columns.length = ncols →
      ∃ ms, readerLoopVA opt p aacc (chunksOf (rows.map arrayRowLine)) =
        some (.ok { metas := ms, columns := aacc.columns, rows := aacc.rows ++ rows }) := by
  induction rows with
  | nil =>
      intro aacc p opt _ _ _ _ _ _ _ _ _ _ _
      refine ⟨aacc.metas, ?_⟩
      show some (Except.ok aacc) = _
      rw [List.append_nil]
  | cons row rest ih =>
      intro aacc p opt hsafe hone ho1 ho2 ho3 ho4 hpc hpr hpq hpl hlen
      obtain ⟨hrlen, hcells⟩ := arrayRowSafeB_spec ncols row (hsafe row (by simp))
      have hfsafe : ∀ g ∈ row.map Value.toStr, safeFieldB g = true :=
        arrayFields_safe row hcells
      have hback : (row.map Value.toStr).map Value.text = row :=
        map_text_toStr row (fun v hv => ⟨(hcells v hv).choose, (hcells v hv).choose_spec.1⟩)
      cases hfe : row.map Value.toStr with
      | nil =>
          exact absurd (by simpa using congrArg List.length hfe)
            (fun h => hn0 (hrlen ▸ h))
      | cons f fs =>
      have hlenf : (f :: fs).length = ncols := by
        rw [← hfe]
        simpa using hrlen
      have hfsafe2 : ∀ g ∈ f :: fs, safeFieldB g = true := hfe ▸ hfsafe
      have hback2 : (f :: fs).map Value.text = row := hfe ▸ hback
      have hblank : ¬((f :: fs).length = 1 ∧ rustTrim ((f :: fs).headD []) = []) := by
        rintro ⟨h1, h2⟩
        have hc1 : ncols = 1 := hlenf.symm.trans h1
        have hh := hone row (by simp) hc1
        rw [hfe] at hh
        exact hh h2
      have hcc : ¬ (aacc.getColumnCount = 0) := by
        show ¬ (aacc.columns.length = 0)
        rw [hlen]
        exact hn0
      have hrl : ¬((f :: fs).length ≠ aacc.getColumnCount) := by
        show ¬ _
        rw [not_not]
        show (f :: fs).length = aacc.columns.length
        rw [hlenf, hlen]
      have hrow : arrayRowLine row = joinSep (f :: fs) ',' := by
        rw [show arrayRowLine row = joinSep (row.map Value.toStr) ',' from rfl, hfe]
      have hlenf2 : (f :: fs).length = aacc.columns.length := hlenf.trans hlen.symm
      have hadd := addArrayRow_ok aacc (f :: fs) hlenf2
      rw [hback2] at hadd
      cases rest with
      | nil =>
          refine ⟨(updateMetasZip aacc.metas row), ?_⟩
          have hlast : lastField f fs ≠ [] ∨ fs ≠ [] := by
            cases fs with
            | cons g gs => exact Or.inr (by simp)
            | nil =>
                left
                have hc1 : ncols = 1 := hlenf.symm
                have hh := hone row (by simp) hc1
                rw [hfe] at hh
                intro hf
                have hf2 : f = [] := hf
                exact hh (by rw [show ([f] : List Str).headD [] = f from rfl, hf2]; rfl)
          have hstep := feedChunk_line_last f fs hfsafe2 hlast p hpc hpr hpq hpl
          show readerLoopVA opt p aacc [arrayRowLine row] = _
          conv_lhs => rw [readerLoopVA]
          rw [ho1, ho2, ho3, hrow]
          simp only [hstep]
          rw [if_neg hblank]
          rw [if_neg hcc]
          rw [if_neg hrl]
          rw [ho4]
          simp only [Bool.false_eq_true, if_false]
          simp only [hadd]
          rfl
      | cons row2 rws =>
          have hstep := feedChunk_line f fs hfsafe2 p hpc hpr hpq hpl
          have hch : chunksOf ((row :: row2 :: rws).map arrayRowLine) =
              (arrayRowLine row ++ ['\n']) :: chunksOf ((row2 :: rws).map arrayRowLine) := rfl
          obtain ⟨ms, hms⟩ := ih
            { aacc with metas := updateMetasZip aacc.metas row, rows := aacc.rows ++ [row] }
            { p with container := [], remnant := [], on_quote := false } opt
            (fun r3 hr3 => hsafe r3 (List.mem_cons_of_mem _ hr3))
            (fun r3 hr3 => hone r3 (List.mem_cons_of_mem _ hr3))
            ho1 ho2 ho3 ho4 rfl rfl rfl hpl hlen
          refine ⟨ms, ?_⟩
          rw [hch]
          conv_lhs => rw [readerLoopVA]
          rw [ho1, ho2, ho3, hrow]
          simp only [hstep]
          rw [if_neg hblank]
          rw [if_neg hcc]
          rw [if_neg hrl]
          rw [ho4]
          simp only [Bool.false_eq_true, if_false]
          simp only [hadd]
          rw [hms]
          simp

theorem oneColGuardB_name (d : VirtualData) (h : oneColGuardB d = true)
    (h1 : d.columns.length = 1) : ∀ c ∈ d.columns, rustTrim c.name ≠ [] := by
  unfold oneColGuardB at h
  rw [Bool.or_eq_true] at h
  rcases h with h | h
  · exact absurd h1 (by simpa using h)
  · rw [Bool.and_eq_true] at h
    intro c hc
    have h2 := List.all_eq_true.mp h.1 c hc
    simpa [List.isEmpty_iff] using h2

theorem oneColGuardB_cell (d : VirtualData) (h : oneColGuardB d = true)
    (h1 : d.columns.length = 1) : ∀ r ∈ d.rows, ∀ c ∈ d.columns,
    ∃ s, r.getCellValue c.name = some (Value.text s) ∧ rustTrim s ≠ [] := by
  unfold oneColGuardB at h
  rw [Bool.or_eq_true] at h
  rcases h with h | h
  · exact absurd h1 (by simpa using h)
  · rw [Bool.and_eq_true] at h
    intro r hr c hc
    have h2 := List.all_eq_true.mp (List.all_eq_true.mp h.2 r hr) c hc
    cases hv : r.getCellValue c.name with
    | none => rw [hv] at h2; exact Bool.noConfusion h2
    | some v =>
        cases v with
        | number k => rw [hv] at h2; exact Bool.noConfusion h2
        | text s =>
            rw [hv] at h2
            exact ⟨s, rfl, by simpa [List.isEmpty_iff] using h2⟩

theorem oneColGuard_rows (d : VirtualData) (h : oneColGuardB d = true) :
    ∀ r ∈ d.rows, d.columns.length = 1 →
      rustTrim ((cellFields d.columns r).headD []) ≠ [] := by
  intro r hr h1
  obtain ⟨c, hcols⟩ := List.length_eq_one.mp h1
  obtain ⟨s, hv, hs⟩ := oneColGuardB_cell d h h1 r hr c (by rw [hcols]; simp)
  rw [hcols]
  rw [show cellFields [c] r = [((r.getCellValue c.name).getD (Value.text [])).toStr] from rfl]
  rw [hv]
  exact hs

theorem oneColGuard_headerVD (d : VirtualData) (h : oneColGuardB d = true) :
    d.columns.length = 1 → rustTrim ((d.columns.map Column.name).headD []) ≠ [] := by
  intro h1
  obtain ⟨c, hcols⟩ := List.length_eq_one.mp h1
  have := oneColGuardB_name d h h1 c (by rw [hcols]; simp)
  rw [hcols]
  exact this

theorem oneColGuardArrB_name (a : VirtualArray) (h : oneColGuardArrB a = true)
    (h1 : a.columns.length = 1) : ∀ c ∈ a.columns, rustTrim c.name ≠ [] := by
  unfold oneColGuardArrB at h
  rw [Bool.or_eq_true] at h
  rcases h with h | h
  · exact absurd h1 (by simpa using h)
  · rw [Bool.and_eq_true] at h
    intro c hc
    have h2 := List.all_eq_true.mp h.1 c hc
    simpa [List.isEmpty_iff] using h2

theorem oneColGuardArr_header (a : VirtualArray) (h : oneColGuardArrB a = true) :
    a.columns.length = 1 → rustTrim ((a.columns.map Column.name).headD []) ≠ [] := by
  intro h1
  obtain ⟨c, hcols⟩ := List.length_eq_one.mp h1
  have := oneColGuardArrB_name a h h1 c (by rw [hcols]; simp)
  rw [hcols]
  exact this

theorem oneColGuardArr_rows (a : VirtualArray) (h : oneColGuardArrB a = true) :
    ∀ row ∈ a.rows, row.length = 1 → a.columns.length = 1 →
      rustTrim ((row.map Value.toStr).headD []) ≠ [] := by
  intro row hrow hr1 h1
  unfold oneColGuardArrB at h
  rw [Bool.or_eq_true] at h
  rcases h with h | h
  · exact absurd h1 (by simpa using h)
  · rw [Bool.and_eq_true] at h
    obtain ⟨v, hv⟩ := List.length_eq_one.mp hr1
    have h2 := List.all_eq_true.mp (List.all_eq_true.mp h.2 row hrow) v (by rw [hv]; simp)
    cases v with
    | number k => exact Bool.noConfusion h2
    | text s =>
        rw [hv]
        simpa [List.isEmpty_iff, Value.toStr] using h2

theorem rowLine_no_nl (cols0 : List Column) (hc0 : cols0 ≠ []) (r : Row)
    (h : ∀ c ∈ cols0, cellTextSafe r c = true) : '\n' ∉ rowLine cols0 r := by
  cases hfe : cellFields cols0 r with
  | nil =>
      exact absurd (by simpa [cellFields] using congrArg List.length hfe)
        (fun h2 => hc0 (List.length_eq_zero.mp h2))
  | cons f fs =>
      rw [show rowLine cols0 r = joinSep (cellFields cols0 r) ',' from rfl, hfe]
      exact no_cr_in_joined f fs '\n' (by decide) (hfe ▸ cellFields_safe cols0 r h) (Or.inr rfl)

theorem rowLine_ne_nil (cols0 : List Column) (hc0 : cols0 ≠ []) (r : Row)
    (hone : cols0.length = 1 → rustTrim ((cellFields cols0 r).headD []) ≠ []) :
    rowLine cols0 r ≠ [] := by
  cases hfe : cellFields cols0 r with
  | nil =>
      exact absurd (by simpa [cellFields] using congrArg List.length hfe)
        (fun h2 => hc0 (List.length_eq_zero.mp h2))
  | cons f fs =>
      rw [show rowLine cols0 r = joinSep (cellFields cols0 r) ',' from rfl, hfe]
      cases fs with
      | cons g gs => exact joinSep_two_ne_nil f g gs ','
      | nil =>
          have hc1 : cols0.length = 1 := by
            have h3 := congrArg List.length hfe
            simp only [cellFields, List.length_map, List.length_cons, List.length_nil] at h3
            exact h3
          have hh := hone hc1
          rw [hfe] at hh
          intro hnil
          rw [show joinSep [f] ',' = f from rfl] at hnil
          exact hh (by rw [show ([f] : List Str).headD [] = f from rfl, hnil]; rfl)

theorem headerLine_ne_nil (names : List Str) (n0 : Str) (nrest : List Str)
    (hne : names = n0 :: nrest)
    (hone : names.length = 1 → rustTrim (names.headD []) ≠ []) :
    joinSep names ',' ≠ [] := by
  subst hne
  cases nrest with
  | cons g gs => exact joinSep_two_ne_nil n0 g gs ','
  | nil =>
      have hh := hone rfl
      intro hnil
      rw [show joinSep [n0] ',' = n0 from rfl] at hnil
      exact hh (by rw [show (n0 :: ([] : List Str)).headD [] = n0 from rfl, hnil]; rfl)

theorem dataFromStream_roundtrip (d : VirtualData)
    (hd1 : d.columns ≠ [])
    (hd2 : (d.columns.map Column.name).Nodup)
    (hd3 : ∀ c ∈ d.columns, safeFieldB c.name = true ∧ parseUsizeRust c.name = none)
    (hd4 : ∀ r ∈ d.rows, ∀ c ∈ d.columns, cellTextSafe r c = true)
    (hd5 : oneColGuardB d = true) :
    ∃ d2, Reader.newReader.dataFromStream d.displayData = some (.ok d2) ∧
      d2.columns.map Column.name = d.columns.map Column.name ∧
      d2.rows.map (rowVec d2.columns) = d.rows.map (rowVec d.columns) := by
  cases hne : d.columns.map Column.name with
  | nil => exact absurd (List.map_eq_nil_iff.mp hne) hd1
  | cons n0 nrest =>
  have hsafe_names : ∀ g ∈ n0 :: nrest, safeFieldB g = true := by
    rw [← hne]
    intro g hg
    obtain ⟨c, hc, hcg⟩ := List.mem_map.mp hg
    exact hcg ▸ (hd3 c hc).1
  have hu : ∀ g ∈ n0 :: nrest, parseUsizeRust g = none := by
    rw [← hne]
    intro g hg
    obtain ⟨c, hc, hcg⟩ := List.mem_map.mp hg
    exact hcg ▸ (hd3 c hc).2
  have hnd2 : (n0 :: nrest).Nodup := hne ▸ hd2
  have hlen_names : (n0 :: nrest).length = d.columns.length := by
    rw [← hne, List.length_map]
  have hheader : headerLine d.columns = joinSep (n0 :: nrest) ',' := by
    rw [show headerLine d.columns = joinSep (d.columns.map Column.name) ',' from rfl, hne]
  have hnl_header : '\n' ∉ headerLine d.columns := by
    rw [hheader]
    exact no_cr_in_joined n0 nrest '\n' (by decide) hsafe_names (Or.inr rfl)
  have hone_rows := oneColGuard_rows d hd5
  have hblank_h : ¬((n0 :: nrest).length = 1 ∧ rustTrim ((n0 :: nrest).headD []) = []) := by
    rintro ⟨h1, h2⟩
    rw [hlen_names] at h1
    have hh := oneColGuard_headerVD d hd5 h1
    rw [hne] at hh
    exact hh h2
  have hhne : headerLine d.columns ≠ [] :=
    headerLine_ne_nil (d.columns.map Column.name) n0 nrest hne
      (fun h1 => oneColGuard_headerVD d hd5 (by simpa using h1))
  cases hrows : d.rows with
  | nil =>
      have hlast_h : lastField n0 nrest ≠ [] ∨ nrest ≠ [] := by
        cases hnr : nrest with
        | cons g gs => exact Or.inr (by simp)
        | nil =>
            left
            have h1 : d.columns.length = 1 := by
              rw [← hlen_names, hnr]
              rfl
            have hh := oneColGuard_headerVD d hd5 h1
            rw [hne, hnr] at hh
            intro hf
            have hf2 : n0 = [] := hf
            exact hh (by rw [show ((n0 :: ([] : List Str)).headD []) = n0 from rfl, hf2]; rfl)
      refine ⟨{ metas := (n0 :: nrest).map headerMeta, columns := headerCols (n0 :: nrest), rows := [] }, ?_, ?_, ?_⟩
      · show readerLoopVD ReaderOption.newOption Reader.newReader.parser.reset
          VirtualData.newData (splitStream '\n' d.displayData) = _
        have hds : d.displayData = headerLine d.columns := by
          rw [displayData_eq, hrows]
          rfl
        rw [hds, splitStream_line_last (headerLine d.columns) hnl_header hhne]
        have hstep := feedChunk_line_last n0 nrest hsafe_names hlast_h
          Reader.newReader.parser.reset rfl rfl rfl rfl
        conv_lhs => rw [readerLoopVD]
        rw [show ReaderOption.newOption.delimiter = (none : Option Char) from rfl,
          show ReaderOption.newOption.consume_dquote = false from rfl,
          show ReaderOption.newOption.allow_invalid_string = false from rfl, hheader]
        simp only [hstep]
        rw [if_neg hblank_h]
        rw [if_pos (show VirtualData.newData.getColumnCount = 0 from rfl)]
        rw [if_neg (show ¬(ReaderOption.newOption.custom_header ≠ []) from fun h => h rfl)]
        rw [if_pos (show ReaderOption.newOption.read_header = true from rfl)]
        rw [show ReaderOption.newOption.trim = false from rfl]
        simp only [Bool.false_eq_true, if_false]
        simp only [addMultipleColumns_ok (n0 :: nrest) hu hnd2]
        rfl
      · rw [headerCols_names]
      · rfl
  | cons r0 rs =>
      have hd4c : ∀ r ∈ r0 :: rs, ∀ c ∈ d.columns, cellTextSafe r c = true :=
        fun r hr => hd4 r (hrows.symm ▸ hr)
      have honec : ∀ r ∈ r0 :: rs, d.columns.length = 1 →
          rustTrim ((cellFields d.columns r).headD []) ≠ [] :=
        fun r hr => hone_rows r (hrows.symm ▸ hr)
      have hnl_rows : ∀ l ∈ d.rows.map (rowLine d.columns), '\n' ∉ l := by
        intro l hl
        obtain ⟨r, hr, hrl⟩ := List.mem_map.mp hl
        exact hrl ▸ rowLine_no_nl d.columns hd1 r (hd4 r hr)
      have hlast_ne : (headerLine d.columns :: d.rows.map (rowLine d.columns)).getLast
          (by simp) ≠ [] := by
        have hmem := List.getLast_mem
          (l := headerLine d.columns :: d.rows.map (rowLine d.columns)) (by simp)
        rcases List.mem_cons.mp hmem with hm | hm
        · rw [hm]
          exact hhne
        · obtain ⟨r, hr, hrl⟩ := List.mem_map.mp hm
          rw [← hrl]
          exact rowLine_ne_nil d.columns hd1 r (fun h1 => hone_rows r hr h1)
      have hsplit : splitStream '\n' d.displayData =
          chunksOf (headerLine d.columns :: d.rows.map (rowLine d.columns)) := by
        rw [displayData_eq]
        exact splitStream_joinSep (d.rows.map (rowLine d.columns)) (headerLine d.columns)
          hnl_header hnl_rows hlast_ne
      have hch : chunksOf (headerLine d.columns :: d.rows.map (rowLine d.columns)) =
          (headerLine d.columns ++ ['\n']) :: chunksOf (d.rows.map (rowLine d.columns)) := by
        rw [hrows]
        rfl
      obtain ⟨ms, hms⟩ := readerLoopVD_rows d.columns hd1 (r0 :: rs)
        { metas := (n0 :: nrest).map headerMeta, columns := headerCols (n0 :: nrest), rows := [] }
        { container := [], remnant := [], on_quote := false, line_delimiter := Reader.newReader.parser.reset.line_delimiter }
        ReaderOption.newOption hd4c honec rfl rfl rfl rfl rfl rfl rfl rfl
        (by simpa [headerCols] using hlen_names)
        (by rw [show ({ metas := (n0 :: nrest).map headerMeta, columns := headerCols (n0 :: nrest), rows := [] } : VirtualData).columns = headerCols (n0 :: nrest) from rfl, headerCols_names]; exact hnd2)
        (headerCols_limiter (n0 :: nrest))
      refine ⟨{ metas := ms, columns := headerCols (n0 :: nrest), rows := [] ++ (r0 :: rs).map (fun r => builtRowOf (headerCols (n0 :: nrest)) (cellFields d.columns r)) }, ?_, ?_, ?_⟩
      · show readerLoopVD ReaderOption.newOption Reader.newReader.parser.reset
          VirtualData.newData (splitStream '\n' d.displayData) = _
        rw [hsplit, hch]
        have hstep := feedChunk_line n0 nrest hsafe_names
          Reader.newReader.parser.reset rfl rfl rfl rfl
        conv_lhs => rw [readerLoopVD]
        rw [show ReaderOption.newOption.delimiter = (none : Option Char) from rfl,
          show ReaderOption.newOption.consume_dquote = false from rfl,
          show ReaderOption.newOption.allow_invalid_string = false from rfl, hheader]
        simp only [hstep]
        rw [if_neg hblank_h]
        rw [if_pos (show VirtualData.newData.getColumnCount = 0 from rfl)]
        rw [if_neg (show ¬(ReaderOption.newOption.custom_header ≠ []) from fun h => h rfl)]
        rw [if_pos (show ReaderOption.newOption.read_header = true from rfl)]
        rw [show ReaderOption.newOption.trim = false from rfl]
        simp only [Bool.false_eq_true, if_false]
        simp only [addMultipleColumns_ok (n0 :: nrest) hu hnd2]
        rw [hrows]
        exact hms
      · rw [headerCols_names]
      · show (([] ++ (r0 :: rs).map (fun r => builtRowOf (headerCols (n0 :: nrest)) (cellFields d.columns r))).map (rowVec (headerCols (n0 :: nrest)))) = _
        rw [List.nil_append, List.map_map]
        refine List.map_congr_left ?_
        intro r hr
        show rowVec (headerCols (n0 :: nrest))
          (builtRowOf (headerCols (n0 :: nrest)) (cellFields d.columns r)) = rowVec d.columns r
        have hlen2 : (headerCols (n0 :: nrest)).length =
            ((cellFields d.columns r).map Value.text).length := by
          simpa [headerCols, cellFields] using hlen_names
        rw [show builtRowOf (headerCols (n0 :: nrest)) (cellFields d.columns r) = (((headerCols (n0 :: nrest)).zip ((cellFields d.columns r).map Value.text)).foldl (fun r cv => r.insertCell cv.1.name cv.2) Row.newRow) from rfl]
        rw [builtRow_rowVec _ _ _ hlen2 (by rw [headerCols_names]; exact hnd2)]
        rw [rowVec_eq_cellFields d.columns r (hd4c r hr)]
        rw [List.map_map]
        rfl

theorem emptyCols_names (names : List Str) :
    (names.map Column.emptyCol).map Column.name = names := by
  simp only [List.map_map]
  exact List.map_id names

theorem arrayRowLine_no_nl (ncols : Nat) (hn0 : ncols ≠ 0) (row : List Value)
    (h : arrayRowSafeB ncols row = true) : '\n' ∉ arrayRowLine row := by
  obtain ⟨hrlen, hcells⟩ := arrayRowSafeB_spec ncols row h
  cases hfe : row.map Value.toStr with
  | nil =>
      have h3 : row.length = 0 := by
        have h4 := congrArg List.length hfe
        simpa only [List.length_map, List.length_nil] using h4
      exact absurd (hrlen.symm.trans h3) hn0
  | cons f fs =>
      rw [show arrayRowLine row = joinSep (row.map Value.toStr) ',' from rfl, hfe]
      exact no_cr_in_joined f fs '\n' (by decide) (hfe ▸ arrayFields_safe row hcells)
        (Or.inr rfl)

theorem arrayRowLine_ne_nil (ncols : Nat) (hn0 : ncols ≠ 0) (row : List Value)
    (h : arrayRowSafeB ncols row = true)
    (hone : ncols = 1 → rustTrim ((row.map Value.toStr).headD []) ≠ []) :
    arrayRowLine row ≠ [] := by
  obtain ⟨hrlen, hcells⟩ := arrayRowSafeB_spec ncols row h
  cases hfe : row.map Value.toStr with
  | nil =>
      have h3 : row.length = 0 := by
        have h4 := congrArg List.length hfe
        simpa only [List.length_map, List.length_nil] using h4
      exact absurd (hrlen.symm.trans h3) hn0
  | cons f fs =>
      rw [show arrayRowLine row = joinSep (row.map Value.toStr) ',' from rfl, hfe]
      cases fs with
      | cons g gs => exact joinSep_two_ne_nil f g gs ','
      | nil =>
          have hc1 : ncols = 1 := by
            have h3 := congrArg List.length hfe
            simp only [List.length_map, List.length_cons, List.length_nil] at h3
            rw [← hrlen]
            exact h3
          have hh := hone hc1
          rw [hfe] at hh
          intro hnil
          rw [show joinSep [f] ',' = f from rfl] at hnil
          exact hh (by rw [show ([f] : List Str).headD [] = f from rfl, hnil]; rfl)

theorem arrayFromStream_roundtrip (a : VirtualArray)
    (ha1 : a.columns ≠ [])
    (ha2 : ∀ c ∈ a.columns, safeFieldB c.name = true)
    (ha3 : ∀ row ∈ a.rows, arrayRowSafeB a.columns.length row = true)
    (ha4 : oneColGuardArrB a = true) :
    ∃ a2, Reader.newReader.arrayFromStream a.displayArray = some (.ok a2) ∧
      a2.columns.map Column.name = a.columns.map Column.name ∧
      a2.rows = a.rows := by
  have hn0 : a.columns.length ≠ 0 := fun h => ha1 (List.length_eq_zero.mp h)
  cases hne : a.columns.map Column.name with
  | nil => exact absurd (List.map_eq_nil_iff.mp hne) ha1
  | cons n0 nrest =>
  have hsafe_names : ∀ g ∈ n0 :: nrest, safeFieldB g = true := by
    rw [← hne]
    intro g hg
    obtain ⟨c, hc, hcg⟩ := List.mem_map.mp hg
    exact hcg ▸ ha2 c hc
  have hlen_names : (n0 :: nrest).length = a.columns.length := by
    rw [← hne, List.length_map]
  have hheader : headerLine a.columns = joinSep (n0 :: nrest) ',' := by
    rw [show headerLine a.columns = joinSep (a.columns.map Column.name) ',' from rfl, hne]
  have hnl_header : '\n' ∉ headerLine a.columns := by
    rw [hheader]
    exact no_cr_in_joined n0 nrest '\n' (by decide) hsafe_names (Or.inr rfl)
  have hblank_h : ¬((n0 :: nrest).length = 1 ∧ rustTrim ((n0 :: nrest).headD []) = []) := by
    rintro ⟨h1, h2⟩
    rw [hlen_names] at h1
    have hh := oneColGuardArr_header a ha4 h1
    rw [hne] at hh
    exact hh h2
  have hhne : headerLine a.columns ≠ [] :=
    headerLine_ne_nil (a.columns.map Column.name) n0 nrest hne
      (fun h1 => oneColGuardArr_header a ha4 (by simpa using h1))
  have honec : ∀ row ∈ a.rows, a.columns.length = 1 →
      rustTrim ((row.map Value.toStr).headD []) ≠ [] :=
    fun row hrw h1 =>
      oneColGuardArr_rows a ha4 row hrw
        ((arrayRowSafeB_spec _ _ (ha3 row hrw)).1.trans h1) h1
  cases hrows : a.rows with
  | nil =>
      refine ⟨{ metas := [], columns := (n0 :: nrest).map Column.emptyCol, rows := [] }, ?_, ?_, ?_⟩
      · show readerLoopVA ReaderOption.newOption Reader.newReader.parser.reset
          VirtualArray.newArray (splitStream '\n' a.displayArray) = _
        have hds : a.displayArray = headerLine a.columns ++ ['\n'] :=
          displayArray_eq_nil a hrows
        have hsp : splitStream '\n' (headerLine a.columns ++ ['\n']) =
            [headerLine a.columns ++ ['\n']] := by
          have h3 := splitStream_line_cons (headerLine a.columns) [] hnl_header
          simpa using h3
        rw [hds, hsp]
        have hstep := feedChunk_line n0 nrest hsafe_names
          Reader.newReader.parser.reset rfl rfl rfl rfl
        conv_lhs => rw [readerLoopVA]
        rw [show ReaderOption.newOption.delimiter = (none : Option Char) from rfl,
          show ReaderOption.newOption.consume_dquote = false from rfl,
          show ReaderOption.newOption.allow_invalid_string = false from rfl, hheader]
        simp only [hstep]
        rw [if_neg hblank_h]
        rw [if_pos (show VirtualArray.newArray.getColumnCount = 0 from rfl)]
        rw [if_neg (show ¬(ReaderOption.newOption.custom_header ≠ []) from fun h => h rfl)]
        rw [if_pos (show ReaderOption.newOption.read_header = true from rfl)]
        rw [show ReaderOption.newOption.trim = false from rfl]
        simp only [Bool.false_eq_true, if_false]
        rfl
      · rw [emptyCols_names]
      · rfl
  | cons row0 rws =>
      have ha3c : ∀ row ∈ row0 :: rws, arrayRowSafeB a.columns.length row = true :=
        fun row hrw => ha3 row (hrows.symm ▸ hrw)
      have honecc : ∀ row ∈ row0 :: rws, a.columns.length = 1 →
          rustTrim ((row.map Value.toStr).headD []) ≠ [] :=
        fun row hrw => honec row (hrows.symm ▸ hrw)
      have hnl_rows : ∀ l ∈ a.rows.map arrayRowLine, '\n' ∉ l := by
        intro l hl
        obtain ⟨row, hrw, hrl⟩ := List.mem_map.mp hl
        exact hrl ▸ arrayRowLine_no_nl a.columns.length hn0 row (ha3 row hrw)
      have hlast_ne : (headerLine a.columns :: a.rows.map arrayRowLine).getLast
          (by simp) ≠ [] := by
        have hmem := List.getLast_mem
          (l := headerLine a.columns :: a.rows.map arrayRowLine) (by simp)
        rcases List.mem_cons.mp hmem with hm | hm
        · rw [hm]
          exact hhne
        · obtain ⟨row, hrw, hrl⟩ := List.mem_map.mp hm
          rw [← hrl]
          exact arrayRowLine_ne_nil a.columns.length hn0 row (ha3 row hrw)
            (fun h1 => honec row hrw h1)
      have hsplit : splitStream '\n' a.displayArray =
          chunksOf (headerLine a.columns :: a.rows.map arrayRowLine) := by
        rw [displayArray_eq_cons a row0 rws hrows]
        exact splitStream_joinSep (a.rows.map arrayRowLine) (headerLine a.columns)
          hnl_header hnl_rows hlast_ne
      have hch : chunksOf (headerLine a.columns :: a.rows.map arrayRowLine) =
          (headerLine a.columns ++ ['\n']) :: chunksOf (a.rows.map arrayRowLine) := by
        rw [hrows]
        rfl
      obtain ⟨ms, hms⟩ := readerLoopVA_rows a.columns.length hn0 (row0 :: rws)
        { metas := [], columns := (n0 :: nrest).map Column.emptyCol, rows := [] }
        { container := [], remnant := [], on_quote := false, line_delimiter := Reader.newReader.parser.reset.line_delimiter }
        ReaderOption.newOption ha3c honecc rfl rfl rfl rfl rfl rfl rfl rfl
        (by simpa using hlen_names)
      refine ⟨{ metas := ms, columns := (n0 :: nrest).map Column.emptyCol, rows := [] ++ (row0 :: rws) }, ?_, ?_, ?_⟩
      · show readerLoopVA ReaderOption.newOption Reader.newReader.parser.reset
          VirtualArray.newArray (splitStream '\n' a.displayArray) = _
        rw [hsplit, hch]
        have hstep := feedChunk_line n0 nrest hsafe_names
          Reader.newReader.parser.reset rfl rfl rfl rfl
        conv_lhs => rw [readerLoopVA]
        rw [show ReaderOption.newOption.delimiter = (none : Option Char) from rfl,
          show ReaderOption.newOption.consume_dquote = false from rfl,
          show ReaderOption.newOption.allow_invalid_string = false from rfl, hheader]
        simp only [hstep]
        rw [if_neg hblank_h]
        rw [if_pos (show VirtualArray.newArray.getColumnCount = 0 from rfl)]
        rw [if_neg (show ¬(ReaderOption.newOption.custom_header ≠ []) from fun h => h rfl)]
        rw [if_pos (show ReaderOption.newOption.read_header = true from rfl)]
        rw [show ReaderOption.newOption.trim = false from rfl]
        simp only [Bool.false_eq_true, if_false]
        rw [hrows]
        exact hms
      · rw [emptyCols_names]
      · rfl

/-- C1, counterexample to the unrestricted claim: a VirtualData whose one
text cell contains the field delimiter renders as the text a,b\x7bnewline\x7db,c,
whose second line re-parses as two fields against the one column, so
data_from_stream reports InvalidRowData instead of reproducing the
container. -/
theorem roundtrip_cex :
    Reader.newReader.dataFromStream roundtripCexData.displayData =
      some (.error .invalidRowData) := rfl

/-- C1 (amended): serializing a container to CSV text via its Display
rendering and re-parsing with the default reader options yields a
container with the same column-name list and the same cell values in the
same order, for every VirtualData whose column list is nonempty with
distinct names that are safe (no delimiter, quote, or line-break
characters) and do not parse as numeric indices, whose cells are all
safe text values, and which passes the one-column blank guard; and for
every VirtualArray under the corresponding conditions.  The unrestricted
claim of the specification is false. -/
theorem display_reparse_roundtrip (d : VirtualData) (a : VirtualArray)
    (hd1 : d.columns ≠ [])
    (hd2 : (d.columns.map Column.name).Nodup)
    (hd3 : ∀ c ∈ d.columns, safeFieldB c.name = true ∧ parseUsizeRust c.name = none)
    (hd4 : ∀ r ∈ d.rows, ∀ c ∈ d.columns, cellTextSafe r c = true)
    (hd5 : oneColGuardB d = true)
    (ha1 : a.columns ≠ [])
    (ha2 : ∀ c ∈ a.columns, safeFieldB c.name = true)
    (ha3 : ∀ row ∈ a.rows, arrayRowSafeB a.columns.length row = true)
    (ha4 : oneColGuardArrB a = true) :
    (∃ d2, Reader.newReader.dataFromStream d.displayData = some (.ok d2) ∧
      d2.columns.map Column.name = d.columns.map Column.name ∧
      d2.rows.map (rowVec d2.columns) = d.rows.map (rowVec d.columns)) ∧
    (∃ a2, Reader.newReader.arrayFromStream a.displayArray = some (.ok a2) ∧
      a2.columns.map Column.name = a.columns.map Column.name ∧
      a2.rows = a.rows) :=
  ⟨dataFromStream_roundtrip d hd1 hd2 hd3 hd4 hd5,
   arrayFromStream_roundtrip a ha1 ha2 ha3 ha4⟩

/-- Witness: the round trip holds for a concrete two-column VirtualData
and VirtualArray. -/
theorem display_reparse_roundtrip_witness :
    (∃ d2, Reader.newReader.dataFromStream roundtripWitnessData.displayData =
        some (.ok d2) ∧
      d2.columns.map Column.name = roundtripWitnessData.columns.map Column.name ∧
      d2.rows.map (rowVec d2.columns) =
        roundtripWitnessData.rows.map (rowVec roundtripWitnessData.columns)) ∧
    (∃ a2, Reader.newReader.arrayFromStream roundtripWitnessArray.displayArray =
        some (.ok a2) ∧
      a2.columns.map Column.name = roundtripWitnessArray.columns.map Column.name ∧
      a2.rows = roundtripWitnessArray.rows) :=
  display_reparse_roundtrip roundtripWitnessData roundtripWitnessArray
    (fun h => List.noConfusion h) (by decide) (by decide) (by decide) (by decide)
    (fun h => List.noConfusion h) (by decide) (by decide) (by decide)

end Dcsv
